import Mathlib

/-! Holder-distribution pipeline of `main.go`.

A shallow embedding of the three functions of `src/main.go` that carry the
balance reconstruction and the concentration report:

* `holdersFromResponse` (lines 106-137): folds the transfer list into a map
  from lowercased holder address to signed balance, or aborts;
* `totalAndArrayFromMap` (lines 139-157): normalises, totals, ranks;
* `formatStats` (lines 159-183): the lines printed for a ranked list.

Modelling conventions.

* `*big.Int` is `Int`.
* `map[string]*big.Int` is an association list `List (String × Int)` with
  pairwise distinct keys.  The order of the list stands for the order in which
  `range` enumerates the map, which Go leaves unspecified; statements about a
  map quantify over every such list.
* `os.Exit(1)` inside `holdersFromResponse` is the result `none`.
* `strings.ToLower` is a parameter `toLower : String → String` of every
  definition that calls it, so that the theorems hold for whatever
  lowercasing the library performs; `asciiToLower` is the instance used to
  evaluate the definitions on ASCII addresses.
* a `float64` is `Option ℚ`: `some q` is the finite value `q`, `none` a
  non-finite value (NaN, ±Inf).  Every float64 operation of the source is the
  exact operation followed by `round64`, the IEEE 754 rounding to the nearest
  binary64 (ties to even, subnormals, overflow).  The sign of a zero, which no
  printed line depends on, is not modelled.
-/

namespace OnchainAnalysis

/-! ## Data model (main.go lines 18-50) -/

/-- The `Token` struct: a pool address and the symbol of its token. -/
structure Token where
  address : String
  symbol : String
  deriving DecidableEq, Repr

/-- The `TokenOwner` struct.  `percent` is `none` when the float64 is not a
finite number. -/
structure TokenOwner where
  address : String
  amount : Int
  percent : Option ℚ
  deriving DecidableEq

/-- The `Transaction` struct, one transfer record of the response of the explorer. -/
structure Transaction where
  BlockNumber : String
  TimeStamp : String
  Hash : String
  Nonce : String
  BlockHash : String
  From : String
  ContractAddress : String
  To : String
  Value : String
  TokenName : String
  TokenSymbol : String
  deriving DecidableEq, Repr

/-- A transfer record with the four fields the pipeline reads; the other
fields are empty. -/
def transfer (src dst value symbol : String) : Transaction :=
  ⟨"", "", "", "", "", src, "", dst, value, "", symbol⟩

/-- The value of `oneGwei`: `big.NewInt(int64(math.Pow(10, 9)))`. -/
def oneGwei : Int := 10 ^ 9

/-- The value of `decimals`: `big.NewInt(0).Mul(oneGwei, oneGwei)`. -/
def decimals : Int := oneGwei * oneGwei

/-! ## Library functions used by the source -/

/-- ASCII lowercasing, which is what `strings.ToLower` does on ASCII input. -/
def asciiToLower (s : String) : String := ⟨s.data.map Char.toLower⟩

/-- The value of a decimal digit, `none` for any other character. -/
def digitValue (c : Char) : Option Nat :=
  if '0' ≤ c ∧ c ≤ '9' then some (c.toNat - '0'.toNat) else none

/-- Scanning of a digit sequence in base 10 with an accumulator; `none` as soon
as a character is not a decimal digit (the whole input must be consumed). -/
def scanDigits : List Char → Nat → Option Nat
  | [], acc => some acc
  | c :: cs, acc =>
    match digitValue c with
    | none => none
    | some d => scanDigits cs (acc * 10 + d)

/-- An unsigned base-10 number: at least one digit, only digits. -/
def scanNat (cs : List Char) : Option Nat :=
  match cs with
  | [] => none
  | _ :: _ => scanDigits cs 0

/-- The function `(*big.Int).SetString(s, 10)`: an optional sign `+` or `-`
followed by one or more decimal digits, the whole string being consumed;
`none` is the `ok == false` result. -/
def SetString (s : String) : Option Int :=
  match s.data with
  | '-' :: cs => (scanNat cs).map (fun n => -(n : Int))
  | '+' :: cs => (scanNat cs).map (fun n => (n : Int))
  | cs => (scanNat cs).map (fun n => (n : Int))

/-- The method `(*big.Int).Int64()`: the low 64 bits of the magnitude with the sign
applied, read as a signed 64-bit integer. -/
def Int64 (x : Int) : Int := (x + 2 ^ 63) % 2 ^ 64 - 2 ^ 63

/-- The method `(*big.Int).Uint64()`: the low 64 bits of the magnitude, the sign
being dropped. -/
def Uint64 (x : Int) : Nat := x.natAbs % 2 ^ 64

/-- Rounding of a rational to the nearest integer, ties going to the even one. -/
def roundHalfEven (x : ℚ) : Int :=
  let f := ⌊x⌋
  let r := x - f
  if r < 1 / 2 then f else if 1 / 2 < r then f + 1 else if f % 2 = 0 then f else f + 1

/-- The exponent of the binade of a non-zero rational in binary64, the
subnormal range sharing the exponent -1022 of the smallest normal numbers. -/
def binade (q : ℚ) : Int := max (Int.log 2 |q|) (-1022)

/-- Rounding of a rational to the nearest number with a 53-bit significand,
ties to even, with the exponent bounded below as in binary64 and not bounded
above. -/
def roundNearest (q : ℚ) : ℚ :=
  if q = 0 then 0
  else (roundHalfEven (q / 2 ^ (binade q - 52)) : ℚ) * 2 ^ (binade q - 52)

/-- The float64 nearest to a rational, which is the result of a float64
operation whose exact result is that rational; `none` when the rounded
magnitude reaches 2^1024, the overflow to an infinity. -/
def round64 (q : ℚ) : Option ℚ :=
  if |roundNearest q| < 2 ^ 1024 then some (roundNearest q) else none

/-- The conversion `float64(x)` of an int64, which never overflows. -/
def float64OfInt64 (x : Int) : ℚ := roundNearest (x : ℚ)

/-- The value `holders[k]` of a map: `none` is the nil pointer of an absent key. -/
def mapGet : List (String × Int) → String → Option Int
  | [], _ => none
  | (k, v) :: rest, a => if k = a then some v else mapGet rest a

/-- The assignment `holders[k] = v`: overwrite the entry of `k`, or add one. -/
def mapSet : List (String × Int) → String → Int → List (String × Int)
  | [], a, v => [(a, v)]
  | (k, w) :: rest, a, v =>
    if k = a then (k, v) :: rest else (k, w) :: mapSet rest a v

/-- The keys of a map. -/
def mapKeys (holders : List (String × Int)) : List String := holders.map Prod.fst

/-- The values of a map. -/
def mapValues (holders : List (String × Int)) : List Int := holders.map Prod.snd

/-- Insertion of `a` into a list ordered by `less`, behind every element that
is `less` than it and in front of the first one that is not. -/
def insertStable {α : Type} (less : α → α → Bool) (a : α) : List α → List α
  | [] => [a]
  | b :: l => if less b a then b :: insertStable less a l else a :: b :: l

/-- The function `sort.SliceStable`: the stable sort by `less`, elements that
are not ordered by `less` keeping their original order. -/
def SliceStable {α : Type} (less : α → α → Bool) : List α → List α
  | [] => []
  | a :: l => insertStable less a (SliceStable less l)

/-! ## `holdersFromResponse` (main.go lines 106-137) -/

/-- The loop of `holdersFromResponse` over the remaining transactions, with
the map built so far. -/
def holdersLoop (toLower : String → String) (pool : Token) :
    List Transaction → List (String × Int) → Option (List (String × Int))
  | [], holders => some holders
  | tx :: rest, holders =>
    if tx.TokenSymbol ≠ pool.symbol then
      holdersLoop toLower pool rest holders
    else
      match SetString tx.Value with
      | none => none
      | some value =>
        let toAddr := toLower tx.To
        let fromAddr := toLower tx.From
        if toAddr = toLower pool.address then
          let currentBal := (mapGet holders fromAddr).getD 0
          holdersLoop toLower pool rest (mapSet holders fromAddr (currentBal + value))
        else if fromAddr = toLower pool.address then
          let currentBal := (mapGet holders toAddr).getD 0
          holdersLoop toLower pool rest (mapSet holders toAddr (currentBal - value))
        else
          holdersLoop toLower pool rest holders

/-- The function `holdersFromResponse`: the map of holders, `none` when the
process exits on a value that does not parse. -/
def holdersFromResponse (toLower : String → String) (transactions : List Transaction)
    (pool : Token) : Option (List (String × Int)) :=
  holdersLoop toLower pool transactions []

/-! ## `totalAndArrayFromMap` (main.go lines 139-157) -/

/-- The first loop of `totalAndArrayFromMap`: each balance is divided by
`decimals` with `(*big.Int).Div`, which is Euclidean division, added to the
total and appended to the array. -/
def accumulateLoop :
    List (String × Int) → List TokenOwner → Int → List TokenOwner × Int
  | [], holderArray, totalTokens => (holderArray, totalTokens)
  | (addr, tokens) :: rest, holderArray, totalTokens =>
    let humanTokens := Int.ediv tokens decimals
    accumulateLoop rest (holderArray ++ [⟨addr, humanTokens, some 0⟩])
      (totalTokens + humanTokens)

/-- The comparison passed to `sort.SliceStable`: `amount.Cmp(other) > 0`. -/
def lessByAmount (a b : TokenOwner) : Bool := decide (a.amount > b.amount)

/-- The expression `float64(amount.Int64()) / float64(total.Int64()) * 100`:
the two conversions, the division and the multiplication are each rounded.
The divisor `float64(total.Int64())` is zero exactly when `total.Int64()` is,
and the quotient is then not finite. -/
def percentOf (amount totalTokens : Int) : Option ℚ :=
  if Int64 totalTokens = 0 then none
  else
    (round64 (float64OfInt64 (Int64 amount) / float64OfInt64 (Int64 totalTokens))).bind
      (fun quotient => round64 (quotient * 100))

/-- The function `totalAndArrayFromMap`, on the entries of the map in the
order in which they are enumerated. -/
def totalAndArrayFromMap (holders : List (String × Int)) : List TokenOwner × Int :=
  let (holderArray, totalTokens) := accumulateLoop holders [] 0
  let sorted := SliceStable lessByAmount holderArray
  (sorted.map (fun holder =>
      TokenOwner.mk holder.address holder.amount (percentOf holder.amount totalTokens)),
    totalTokens)

/-! ## `formatStats` (main.go lines 159-183) and the loop body of `main` -/

/-- A printed line: the header of a pool, a cumulative line of the top `n`
holders, or the line of the holder count. -/
inductive Line where
  | distribution (symbol : String) (totalTokens : Nat)
  | top (n : Nat) (accumulatedPercent : Option ℚ) (accumulatedAmount : Nat)
  | holdersInTotal (n : Nat) (accumulatedAmount : Nat)
  deriving DecidableEq

/-- Addition of two float64 values: a zero operand leaves the other operand
unchanged, the sum of two non-zero finite values is rounded, and a non-finite
operand gives a non-finite result. -/
def addPercent (a b : Option ℚ) : Option ℚ :=
  match a, b with
  | some x, some y => if x = 0 then some y else if y = 0 then some x else round64 (x + y)
  | _, _ => none

/-- The loop of `formatStats` at index `i`, with the two accumulators. -/
def formatStatsLoop (len : Nat) :
    List TokenOwner → Nat → Option ℚ → Nat → List Line
  | [], _, _, _ => []
  | holder :: rest, i, accumulatedPercent, accumulatedAmount =>
    let accumulatedPercent := addPercent accumulatedPercent holder.percent
    let accumulatedAmount := (accumulatedAmount + Uint64 holder.amount) % 2 ^ 64
    let printed :=
      if i = 0 then [Line.top 1 accumulatedPercent accumulatedAmount]
      else if i = 4 then [Line.top 5 accumulatedPercent accumulatedAmount]
      else if i = 9 then [Line.top 10 accumulatedPercent accumulatedAmount]
      else if i = 24 then [Line.top 25 accumulatedPercent accumulatedAmount]
      else if i = 49 then [Line.top 50 accumulatedPercent accumulatedAmount]
      else if i = 99 then [Line.top 100 accumulatedPercent accumulatedAmount]
      else if i = 249 then [Line.top 250 accumulatedPercent accumulatedAmount]
      else if i = len - 1 then [Line.holdersInTotal len accumulatedAmount]
      else []
    printed ++ formatStatsLoop len rest (i + 1) accumulatedPercent accumulatedAmount

/-- The function `formatStats`, as the list of the lines it prints. -/
def formatStats (holders : List TokenOwner) : List Line :=
  formatStatsLoop holders.length holders 0 (some 0) 0

/-- The loop body of `main` for one pool after the response is decoded
(lines 96-102): the lines printed for the pool, `none` when
`holdersFromResponse` exits first. -/
def poolReport (toLower : String → String) (transactions : List Transaction)
    (pool : Token) : Option (List Line) :=
  match holdersFromResponse toLower transactions pool with
  | none => none
  | some holders =>
    let (holderArray, totalTokens) := totalAndArrayFromMap holders
    some (Line.distribution pool.symbol (Uint64 totalTokens) :: formatStats holderArray)

/-! ## Reference quantities of the specification -/

/-- The amount of a record, 0 when its value does not parse. -/
def amountOf (tx : Transaction) : Int := (SetString tx.Value).getD 0

/-- A deposit into the pool: a symbol-matching record whose lowercased
destination is the lowercased pool address. -/
def isDeposit (toLower : String → String) (pool : Token) (tx : Transaction) : Bool :=
  decide (tx.TokenSymbol = pool.symbol) && decide (toLower tx.To = toLower pool.address)

/-- A withdrawal from the pool: a symbol-matching record whose lowercased
destination is not the pool address and whose lowercased source is. -/
def isWithdrawal (toLower : String → String) (pool : Token) (tx : Transaction) : Bool :=
  decide (tx.TokenSymbol = pool.symbol) && !decide (toLower tx.To = toLower pool.address)
    && decide (toLower tx.From = toLower pool.address)

/-- The sum of the amounts of the deposits made by address `a`. -/
def depositedBy (toLower : String → String) (pool : Token) (txs : List Transaction)
    (a : String) : Int :=
  ((txs.filter (fun tx => isDeposit toLower pool tx && decide (toLower tx.From = a))).map
    amountOf).sum

/-- The sum of the amounts of the withdrawals received by address `a`. -/
def withdrawnTo (toLower : String → String) (pool : Token) (txs : List Transaction)
    (a : String) : Int :=
  ((txs.filter (fun tx => isWithdrawal toLower pool tx && decide (toLower tx.To = a))).map
    amountOf).sum

/-- The sum of the amounts of all deposits into the pool. -/
def totalDeposits (toLower : String → String) (pool : Token) (txs : List Transaction) : Int :=
  ((txs.filter (isDeposit toLower pool)).map amountOf).sum

/-- The sum of the amounts of all withdrawals from the pool. -/
def totalWithdrawals (toLower : String → String) (pool : Token) (txs : List Transaction) :
    Int :=
  ((txs.filter (isWithdrawal toLower pool)).map amountOf).sum

/-- Every symbol-matching record of the list has a value that parses. -/
def validAmounts (pool : Token) (txs : List Transaction) : Prop :=
  ∀ tx ∈ txs, tx.TokenSymbol = pool.symbol → (SetString tx.Value).isSome = true

/-- The sub-list of the records whose token symbol is that of the pool, as
the Ledger Ingest of the specification describes it. -/
def filterSymbol (pool : Token) (txs : List Transaction) : List Transaction :=
  txs.filter (fun tx => decide (tx.TokenSymbol = pool.symbol))

/-- Address `a` is the holder side of a pool transfer of the list: the
lowercased source of a deposit or the lowercased destination of a withdrawal. -/
def tookPart (toLower : String → String) (pool : Token) (txs : List Transaction)
    (a : String) : Prop :=
  ∃ tx ∈ txs, (isDeposit toLower pool tx = true ∧ toLower tx.From = a) ∨
    (isWithdrawal toLower pool tx = true ∧ toLower tx.To = a)

/-- The array entry that the first loop appends for a map entry. -/
def ownerOfEntry (p : String × Int) : TokenOwner := ⟨p.1, Int.ediv p.2 decimals, some 0⟩

/-! ## Reference quantities of the report -/

/-- The ranks at which `formatStats` prints a cumulative line. -/
def cutoffs : List Nat := [1, 5, 10, 25, 50, 100, 250]

/-- The lines printed by one iteration of the loop of `formatStats` at index
`i`, with the accumulators already updated: the if-chain of lines 165-181. -/
def printedAt (len i : Nat) (accumulatedPercent : Option ℚ) (accumulatedAmount : Nat) :
    List Line :=
  if i = 0 then [Line.top 1 accumulatedPercent accumulatedAmount]
  else if i = 4 then [Line.top 5 accumulatedPercent accumulatedAmount]
  else if i = 9 then [Line.top 10 accumulatedPercent accumulatedAmount]
  else if i = 24 then [Line.top 25 accumulatedPercent accumulatedAmount]
  else if i = 49 then [Line.top 50 accumulatedPercent accumulatedAmount]
  else if i = 99 then [Line.top 100 accumulatedPercent accumulatedAmount]
  else if i = 249 then [Line.top 250 accumulatedPercent accumulatedAmount]
  else if i = len - 1 then [Line.holdersInTotal len accumulatedAmount]
  else []

/-- The value of `accumulatedAmount` after the holders of the list: the sum of
the `Uint64()` of their amounts in uint64 arithmetic. -/
def cumulativeAmount (holders : List TokenOwner) : Nat :=
  (holders.map (fun o => Uint64 o.amount)).sum % 2 ^ 64

/-- The value of `accumulatedPercent` after the holders of the list. -/
def cumulativePercent (holders : List TokenOwner) : Option ℚ :=
  holders.foldl (fun acc o => addPercent acc o.percent) (some 0)

/-- The rank of a cumulative line, `none` for the other lines. -/
def topRank : Line → Option Nat
  | Line.top n _ _ => some n
  | _ => none

/-- The holder count of a grand-total line, `none` for the other lines. -/
def grandTotal : Line → Option Nat
  | Line.holdersInTotal n _ => some n
  | _ => none

/-- The token amount printed on a line. -/
def lineAmount : Line → Nat
  | Line.distribution _ totalTokens => totalTokens
  | Line.top _ _ accumulatedAmount => accumulatedAmount
  | Line.holdersInTotal _ accumulatedAmount => accumulatedAmount

/-- Two records that differ at most in the letter case of their endpoints. -/
def caseVariant (toLower : String → String) (tx tx' : Transaction) : Prop :=
  toLower tx.From = toLower tx'.From ∧ toLower tx.To = toLower tx'.To ∧
    tx.Value = tx'.Value ∧ tx.TokenSymbol = tx'.TokenSymbol

/-- A non-empty sequence of decimal digits. -/
def isDigits (cs : List Char) : Bool :=
  !cs.isEmpty && cs.all (fun c => decide ('0' ≤ c ∧ c ≤ '9'))

/-- The grammar of a signed base-10 integer: an optional sign `+` or `-`
followed by one or more decimal digits. -/
def isSignedDecimal (s : String) : Bool :=
  match s.data with
  | '-' :: cs => isDigits cs
  | '+' :: cs => isDigits cs
  | cs => isDigits cs

/-- The unit roundoff of binary64. -/
def unitRoundoff : ℚ := 1 / 2 ^ 53

/-! ## Lemmas on maps -/

theorem mapGet_mapSet (h : List (String × Int)) (k a : String) (v : Int) :
    mapGet (mapSet h k v) a = if k = a then some v else mapGet h a := by
  induction h with
  | nil => simp [mapSet, mapGet]
  | cons p rest ih =>
    obtain ⟨k', w⟩ := p
    by_cases hk : k' = k
    · subst hk
      by_cases ha : k' = a <;> simp [mapSet, mapGet, ha]
    · by_cases ha : k' = a
      · subst ha
        have hk2 : ¬ k = k' := fun e => hk e.symm
        simp [mapSet, mapGet, hk, hk2]
      · simp [mapSet, mapGet, hk, ha, ih]

theorem mem_mapKeys_mapSet (h : List (String × Int)) (k a : String) (v : Int) :
    a ∈ mapKeys (mapSet h k v) ↔ a = k ∨ a ∈ mapKeys h := by
  induction h with
  | nil => simp [mapSet, mapKeys]
  | cons p rest ih =>
    obtain ⟨k', w⟩ := p
    by_cases hk : k' = k
    · subst hk
      simp [mapSet, mapKeys]
    · simp only [mapKeys] at ih
      simp [mapSet, mapKeys, hk, ih]
      tauto

theorem mapGet_eq_none_iff (h : List (String × Int)) (a : String) :
    mapGet h a = none ↔ a ∉ mapKeys h := by
  induction h with
  | nil => simp [mapGet, mapKeys]
  | cons p rest ih =>
    obtain ⟨k', w⟩ := p
    simp only [mapKeys] at ih
    by_cases hk : k' = a
    · simp [mapGet, mapKeys, hk]
    · have hk2 : ¬ a = k' := fun e => hk e.symm
      simp [mapGet, mapKeys, hk, hk2, ih]

theorem nodup_mapKeys_mapSet (h : List (String × Int)) (k : String) (v : Int)
    (hn : (mapKeys h).Nodup) : (mapKeys (mapSet h k v)).Nodup := by
  induction h with
  | nil => simp [mapSet, mapKeys]
  | cons p rest ih =>
    obtain ⟨k', w⟩ := p
    by_cases hk : k' = k
    · subst hk
      simpa [mapSet, mapKeys] using hn
    · have hn2 : k' ∉ mapKeys rest ∧ (mapKeys rest).Nodup := by
        simpa [mapKeys] using hn
      have h1 := ih hn2.2
      have h2 : k' ∉ mapKeys (mapSet rest k v) := by
        rw [mem_mapKeys_mapSet]
        intro hh
        rcases hh with hh | hh
        · exact hk hh
        · exact hn2.1 hh
      simp only [mapSet, hk, if_false, mapKeys, List.map_cons, List.nodup_cons]
      exact ⟨h2, h1⟩

theorem sum_mapValues_mapSet (h : List (String × Int)) (k : String) (v : Int) :
    (mapValues (mapSet h k v)).sum = (mapValues h).sum - (mapGet h k).getD 0 + v := by
  induction h with
  | nil => simp [mapSet, mapValues, mapGet]
  | cons p rest ih =>
    obtain ⟨k', w⟩ := p
    by_cases hk : k' = k
    · simp [mapSet, mapValues, mapGet, hk]
      ring
    · simp only [mapValues] at ih
      simp [mapSet, mapValues, mapGet, hk, ih]
      ring

theorem mapGet_of_mem (holders : List (String × Int)) (hn : (mapKeys holders).Nodup)
    (k : String) (v : Int) (hmem : (k, v) ∈ holders) : mapGet holders k = some v := by
  induction holders with
  | nil => cases hmem
  | cons p rest ih =>
    obtain ⟨k', w⟩ := p
    have hn2 : k' ∉ mapKeys rest ∧ (mapKeys rest).Nodup := by
      simpa [mapKeys] using hn
    rcases List.mem_cons.1 hmem with e | hmem
    · cases e
      simp [mapGet]
    · have hne : k' ≠ k := by
        intro e
        subst e
        exact hn2.1 (List.mem_map.2 ⟨(k', v), hmem, rfl⟩)
      simp [mapGet, hne, ih hn2.2 hmem]

/-! ## Lemmas on the loop of `holdersFromResponse` -/

theorem holdersLoop_skip (toLower : String → String) (pool : Token) (tx : Transaction)
    (rest : List Transaction) (h : List (String × Int))
    (hs : tx.TokenSymbol ≠ pool.symbol) :
    holdersLoop toLower pool (tx :: rest) h = holdersLoop toLower pool rest h := by
  simp [holdersLoop, hs]

theorem holdersLoop_fail (toLower : String → String) (pool : Token) (tx : Transaction)
    (rest : List Transaction) (h : List (String × Int))
    (hs : tx.TokenSymbol = pool.symbol) (hv : SetString tx.Value = none) :
    holdersLoop toLower pool (tx :: rest) h = none := by
  simp [holdersLoop, hs, hv]

theorem holdersLoop_deposit (toLower : String → String) (pool : Token) (tx : Transaction)
    (rest : List Transaction) (h : List (String × Int)) (value : Int)
    (hs : tx.TokenSymbol = pool.symbol) (hv : SetString tx.Value = some value)
    (hd : toLower tx.To = toLower pool.address) :
    holdersLoop toLower pool (tx :: rest) h =
      holdersLoop toLower pool rest
        (mapSet h (toLower tx.From) ((mapGet h (toLower tx.From)).getD 0 + value)) := by
  simp [holdersLoop, hs, hv, hd]

theorem holdersLoop_withdrawal (toLower : String → String) (pool : Token) (tx : Transaction)
    (rest : List Transaction) (h : List (String × Int)) (value : Int)
    (hs : tx.TokenSymbol = pool.symbol) (hv : SetString tx.Value = some value)
    (hd : toLower tx.To ≠ toLower pool.address)
    (hw : toLower tx.From = toLower pool.address) :
    holdersLoop toLower pool (tx :: rest) h =
      holdersLoop toLower pool rest
        (mapSet h (toLower tx.To) ((mapGet h (toLower tx.To)).getD 0 - value)) := by
  simp [holdersLoop, hs, hv, hd, hw]

theorem holdersLoop_other (toLower : String → String) (pool : Token) (tx : Transaction)
    (rest : List Transaction) (h : List (String × Int)) (value : Int)
    (hs : tx.TokenSymbol = pool.symbol) (hv : SetString tx.Value = some value)
    (hd : toLower tx.To ≠ toLower pool.address)
    (hw : toLower tx.From ≠ toLower pool.address) :
    holdersLoop toLower pool (tx :: rest) h = holdersLoop toLower pool rest h := by
  simp [holdersLoop, hs, hv, hd, hw]

theorem holdersLoop_append (toLower : String → String) (pool : Token)
    (l₁ l₂ : List Transaction) (h : List (String × Int)) :
    holdersLoop toLower pool (l₁ ++ l₂) h =
      (holdersLoop toLower pool l₁ h).bind (holdersLoop toLower pool l₂) := by
  induction l₁ generalizing h with
  | nil => simp [holdersLoop]
  | cons tx rest ih =>
    rw [List.cons_append]
    by_cases hs : tx.TokenSymbol = pool.symbol
    · cases hv : SetString tx.Value with
      | none => simp [holdersLoop_fail toLower pool tx _ h hs hv]
      | some value =>
        by_cases hd : toLower tx.To = toLower pool.address
        · rw [holdersLoop_deposit toLower pool tx _ h value hs hv hd,
            holdersLoop_deposit toLower pool tx _ h value hs hv hd, ih]
        · by_cases hw : toLower tx.From = toLower pool.address
          · rw [holdersLoop_withdrawal toLower pool tx _ h value hs hv hd hw,
              holdersLoop_withdrawal toLower pool tx _ h value hs hv hd hw, ih]
          · rw [holdersLoop_other toLower pool tx _ h value hs hv hd hw,
              holdersLoop_other toLower pool tx _ h value hs hv hd hw, ih]
    · rw [holdersLoop_skip toLower pool tx _ h hs, holdersLoop_skip toLower pool tx _ h hs, ih]

theorem holdersLoop_eq_none_iff (toLower : String → String) (pool : Token)
    (txs : List Transaction) (h : List (String × Int)) :
    holdersLoop toLower pool txs h = none ↔
      ∃ tx ∈ txs, tx.TokenSymbol = pool.symbol ∧ SetString tx.Value = none := by
  induction txs generalizing h with
  | nil => simp [holdersLoop]
  | cons tx rest ih =>
    by_cases hs : tx.TokenSymbol = pool.symbol
    · cases hv : SetString tx.Value with
      | none =>
        rw [holdersLoop_fail toLower pool tx _ h hs hv]
        simp only [true_iff]
        exact ⟨tx, List.mem_cons_self _ _, hs, hv⟩
      | some value =>
        have key : ∀ h', (holdersLoop toLower pool rest h' = none ↔
            ∃ t ∈ tx :: rest, t.TokenSymbol = pool.symbol ∧ SetString t.Value = none) := by
          intro h'
          rw [ih h']
          constructor
          · rintro ⟨t, ht, h1, h2⟩
            exact ⟨t, List.mem_cons_of_mem _ ht, h1, h2⟩
          · rintro ⟨t, ht, h1, h2⟩
            rcases List.mem_cons.1 ht with e | ht
            · subst e
              rw [hv] at h2
              cases h2
            · exact ⟨t, ht, h1, h2⟩
        by_cases hd : toLower tx.To = toLower pool.address
        · rw [holdersLoop_deposit toLower pool tx _ h value hs hv hd]
          exact key _
        · by_cases hw : toLower tx.From = toLower pool.address
          · rw [holdersLoop_withdrawal toLower pool tx _ h value hs hv hd hw]
            exact key _
          · rw [holdersLoop_other toLower pool tx _ h value hs hv hd hw]
            exact key _
    · rw [holdersLoop_skip toLower pool tx _ h hs, ih h]
      constructor
      · rintro ⟨t, ht, h1, h2⟩
        exact ⟨t, List.mem_cons_of_mem _ ht, h1, h2⟩
      · rintro ⟨t, ht, h1, h2⟩
        rcases List.mem_cons.1 ht with e | ht
        · subst e
          exact absurd h1 hs
        · exact ⟨t, ht, h1, h2⟩

theorem holdersLoop_isSome_of_valid (toLower : String → String) (pool : Token)
    (txs : List Transaction) (h : List (String × Int)) (hv : validAmounts pool txs) :
    ∃ m, holdersLoop toLower pool txs h = some m := by
  cases hm : holdersLoop toLower pool txs h with
  | some m => exact ⟨m, rfl⟩
  | none =>
    obtain ⟨tx, ht, h1, h2⟩ := (holdersLoop_eq_none_iff toLower pool txs h).1 hm
    have := hv tx ht h1
    rw [h2] at this
    cases this

theorem depositedBy_cons (toLower : String → String) (pool : Token) (tx : Transaction)
    (rest : List Transaction) (a : String) :
    depositedBy toLower pool (tx :: rest) a =
      (if isDeposit toLower pool tx = true ∧ toLower tx.From = a then amountOf tx else 0) +
        depositedBy toLower pool rest a := by
  by_cases hc : isDeposit toLower pool tx = true ∧ toLower tx.From = a
  · simp [depositedBy, List.filter_cons, hc.1, hc.2]
  · rw [if_neg hc]
    have : (isDeposit toLower pool tx && decide (toLower tx.From = a)) = false := by
      cases hi : isDeposit toLower pool tx
      · simp
      · simp only [hi, true_and] at hc
        simp [hc]
    simp [depositedBy, List.filter_cons, this]

theorem withdrawnTo_cons (toLower : String → String) (pool : Token) (tx : Transaction)
    (rest : List Transaction) (a : String) :
    withdrawnTo toLower pool (tx :: rest) a =
      (if isWithdrawal toLower pool tx = true ∧ toLower tx.To = a then amountOf tx else 0) +
        withdrawnTo toLower pool rest a := by
  by_cases hc : isWithdrawal toLower pool tx = true ∧ toLower tx.To = a
  · simp [withdrawnTo, List.filter_cons, hc.1, hc.2]
  · rw [if_neg hc]
    have : (isWithdrawal toLower pool tx && decide (toLower tx.To = a)) = false := by
      cases hi : isWithdrawal toLower pool tx
      · simp
      · simp only [hi, true_and] at hc
        simp [hc]
    simp [withdrawnTo, List.filter_cons, this]

theorem holdersLoop_balance (toLower : String → String) (pool : Token)
    (txs : List Transaction) (h m : List (String × Int))
    (hm : holdersLoop toLower pool txs h = some m) (a : String) :
    (mapGet m a).getD 0 =
      (mapGet h a).getD 0 + depositedBy toLower pool txs a - withdrawnTo toLower pool txs a := by
  induction txs generalizing h with
  | nil =>
    simp only [holdersLoop, Option.some.injEq] at hm
    subst hm
    simp [depositedBy, withdrawnTo]
  | cons tx rest ih =>
    rw [depositedBy_cons, withdrawnTo_cons]
    by_cases hs : tx.TokenSymbol = pool.symbol
    · cases hv : SetString tx.Value with
      | none =>
        rw [holdersLoop_fail toLower pool tx _ h hs hv] at hm
        cases hm
      | some value =>
        have hamt : amountOf tx = value := by simp [amountOf, hv]
        by_cases hd : toLower tx.To = toLower pool.address
        · rw [holdersLoop_deposit toLower pool tx _ h value hs hv hd] at hm
          have h1 : isDeposit toLower pool tx = true := by simp [isDeposit, hs, hd]
          have h2 : isWithdrawal toLower pool tx = false := by simp [isWithdrawal, hs, hd]
          rw [ih _ hm, mapGet_mapSet, h1, h2, hamt]
          by_cases ha : toLower tx.From = a
          · simp [ha]
            ring
          · simp [ha]
        · by_cases hw : toLower tx.From = toLower pool.address
          · rw [holdersLoop_withdrawal toLower pool tx _ h value hs hv hd hw] at hm
            have h1 : isDeposit toLower pool tx = false := by simp [isDeposit, hs, hd]
            have h2 : isWithdrawal toLower pool tx = true := by
              simp [isWithdrawal, hs, hd, hw]
            rw [ih _ hm, mapGet_mapSet, h1, h2, hamt]
            by_cases ha : toLower tx.To = a
            · simp [ha]
              ring
            · simp [ha]
          · rw [holdersLoop_other toLower pool tx _ h value hs hv hd hw] at hm
            have h1 : isDeposit toLower pool tx = false := by simp [isDeposit, hs, hd]
            have h2 : isWithdrawal toLower pool tx = false := by
              simp [isWithdrawal, hs, hd, hw]
            rw [ih _ hm, h1, h2]
            simp
    · rw [holdersLoop_skip toLower pool tx _ h hs] at hm
      have h1 : isDeposit toLower pool tx = false := by simp [isDeposit, hs]
      have h2 : isWithdrawal toLower pool tx = false := by simp [isWithdrawal, hs]
      rw [ih _ hm, h1, h2]
      simp

theorem holdersLoop_sum (toLower : String → String) (pool : Token)
    (txs : List Transaction) (h m : List (String × Int))
    (hm : holdersLoop toLower pool txs h = some m) :
    (mapValues m).sum =
      (mapValues h).sum + totalDeposits toLower pool txs - totalWithdrawals toLower pool txs := by
  induction txs generalizing h with
  | nil =>
    simp only [holdersLoop, Option.some.injEq] at hm
    subst hm
    simp [totalDeposits, totalWithdrawals]
  | cons tx rest ih =>
    by_cases hs : tx.TokenSymbol = pool.symbol
    · cases hv : SetString tx.Value with
      | none =>
        rw [holdersLoop_fail toLower pool tx _ h hs hv] at hm
        cases hm
      | some value =>
        have hamt : amountOf tx = value := by simp [amountOf, hv]
        by_cases hd : toLower tx.To = toLower pool.address
        · rw [holdersLoop_deposit toLower pool tx _ h value hs hv hd] at hm
          rw [ih _ hm, sum_mapValues_mapSet]
          simp [totalDeposits, totalWithdrawals, isDeposit, isWithdrawal, List.filter_cons, hs,
            hd, hamt]
          ring
        · by_cases hw : toLower tx.From = toLower pool.address
          · rw [holdersLoop_withdrawal toLower pool tx _ h value hs hv hd hw] at hm
            rw [ih _ hm, sum_mapValues_mapSet]
            simp [totalDeposits, totalWithdrawals, isDeposit, isWithdrawal, List.filter_cons,
              hs, hd, hw, hamt]
            ring
          · rw [holdersLoop_other toLower pool tx _ h value hs hv hd hw] at hm
            rw [ih _ hm]
            simp [totalDeposits, totalWithdrawals, isDeposit, isWithdrawal, List.filter_cons,
              hs, hd, hw]
    · rw [holdersLoop_skip toLower pool tx _ h hs] at hm
      rw [ih _ hm]
      simp [totalDeposits, totalWithdrawals, isDeposit, isWithdrawal, List.filter_cons, hs]

theorem tookPart_cons (toLower : String → String) (pool : Token) (tx : Transaction)
    (rest : List Transaction) (a : String) :
    tookPart toLower pool (tx :: rest) a ↔
      ((isDeposit toLower pool tx = true ∧ toLower tx.From = a) ∨
        (isWithdrawal toLower pool tx = true ∧ toLower tx.To = a)) ∨
      tookPart toLower pool rest a := by
  simp [tookPart]

theorem holdersLoop_keys (toLower : String → String) (pool : Token)
    (txs : List Transaction) (h m : List (String × Int))
    (hm : holdersLoop toLower pool txs h = some m) (a : String) :
    a ∈ mapKeys m ↔ a ∈ mapKeys h ∨ tookPart toLower pool txs a := by
  induction txs generalizing h with
  | nil =>
    simp only [holdersLoop, Option.some.injEq] at hm
    subst hm
    simp [tookPart]
  | cons tx rest ih =>
    rw [tookPart_cons]
    by_cases hs : tx.TokenSymbol = pool.symbol
    · cases hv : SetString tx.Value with
      | none =>
        rw [holdersLoop_fail toLower pool tx _ h hs hv] at hm
        cases hm
      | some value =>
        by_cases hd : toLower tx.To = toLower pool.address
        · rw [holdersLoop_deposit toLower pool tx _ h value hs hv hd] at hm
          rw [ih _ hm, mem_mapKeys_mapSet]
          simp [isDeposit, isWithdrawal, hs, hd]
          tauto
        · by_cases hw : toLower tx.From = toLower pool.address
          · rw [holdersLoop_withdrawal toLower pool tx _ h value hs hv hd hw] at hm
            rw [ih _ hm, mem_mapKeys_mapSet]
            simp [isDeposit, isWithdrawal, hs, hd, hw]
            tauto
          · rw [holdersLoop_other toLower pool tx _ h value hs hv hd hw] at hm
            rw [ih _ hm]
            simp [isDeposit, isWithdrawal, hs, hd, hw]
    · rw [holdersLoop_skip toLower pool tx _ h hs] at hm
      rw [ih _ hm]
      simp [isDeposit, isWithdrawal, hs]

theorem holdersLoop_nodup (toLower : String → String) (pool : Token)
    (txs : List Transaction) (h m : List (String × Int))
    (hm : holdersLoop toLower pool txs h = some m) (hn : (mapKeys h).Nodup) :
    (mapKeys m).Nodup := by
  induction txs generalizing h with
  | nil =>
    simp only [holdersLoop, Option.some.injEq] at hm
    subst hm
    exact hn
  | cons tx rest ih =>
    by_cases hs : tx.TokenSymbol = pool.symbol
    · cases hv : SetString tx.Value with
      | none =>
        rw [holdersLoop_fail toLower pool tx _ h hs hv] at hm
        cases hm
      | some value =>
        by_cases hd : toLower tx.To = toLower pool.address
        · rw [holdersLoop_deposit toLower pool tx _ h value hs hv hd] at hm
          exact ih _ hm (nodup_mapKeys_mapSet _ _ _ hn)
        · by_cases hw : toLower tx.From = toLower pool.address
          · rw [holdersLoop_withdrawal toLower pool tx _ h value hs hv hd hw] at hm
            exact ih _ hm (nodup_mapKeys_mapSet _ _ _ hn)
          · rw [holdersLoop_other toLower pool tx _ h value hs hv hd hw] at hm
            exact ih _ hm hn
    · rw [holdersLoop_skip toLower pool tx _ h hs] at hm
      exact ih _ hm hn

theorem holdersLoop_filterSymbol (toLower : String → String) (pool : Token)
    (txs : List Transaction) (h : List (String × Int)) :
    holdersLoop toLower pool (filterSymbol pool txs) h = holdersLoop toLower pool txs h := by
  induction txs generalizing h with
  | nil => rfl
  | cons tx rest ih =>
    by_cases hs : tx.TokenSymbol = pool.symbol
    · have hf : filterSymbol pool (tx :: rest) = tx :: filterSymbol pool rest := by
        simp [filterSymbol, hs]
      rw [hf]
      cases hv : SetString tx.Value with
      | none =>
        rw [holdersLoop_fail toLower pool tx _ h hs hv,
          holdersLoop_fail toLower pool tx _ h hs hv]
      | some value =>
        by_cases hd : toLower tx.To = toLower pool.address
        · rw [holdersLoop_deposit toLower pool tx _ h value hs hv hd,
            holdersLoop_deposit toLower pool tx _ h value hs hv hd, ih]
        · by_cases hw : toLower tx.From = toLower pool.address
          · rw [holdersLoop_withdrawal toLower pool tx _ h value hs hv hd hw,
              holdersLoop_withdrawal toLower pool tx _ h value hs hv hd hw, ih]
          · rw [holdersLoop_other toLower pool tx _ h value hs hv hd hw,
              holdersLoop_other toLower pool tx _ h value hs hv hd hw, ih]
    · have hf : filterSymbol pool (tx :: rest) = filterSymbol pool rest := by
        simp [filterSymbol, hs]
      rw [hf, holdersLoop_skip toLower pool tx _ h hs, ih]

theorem holdersLoop_insert (toLower : String → String) (pool : Token)
    (pre post : List Transaction) (tx : Transaction)
    (hstep : ∀ h, holdersLoop toLower pool (tx :: post) h = holdersLoop toLower pool post h) :
    holdersLoop toLower pool (pre ++ tx :: post) [] = holdersLoop toLower pool (pre ++ post) [] := by
  rw [holdersLoop_append, holdersLoop_append]
  cases holdersLoop toLower pool pre [] with
  | none => rfl
  | some h => exact hstep h

/-! ## Lemmas on the stable sort -/

theorem insertStable_perm {α : Type} (less : α → α → Bool) (a : α) (l : List α) :
    (insertStable less a l).Perm (a :: l) := by
  induction l with
  | nil => simp [insertStable]
  | cons b l ih =>
    by_cases hb : less b a = true
    · simp only [insertStable, hb, if_true]
      exact (List.Perm.cons b ih).trans (List.Perm.swap a b l)
    · simp [insertStable, hb]

theorem SliceStable_perm {α : Type} (less : α → α → Bool) (l : List α) :
    (SliceStable less l).Perm l := by
  induction l with
  | nil => simp [SliceStable]
  | cons a l ih =>
    simp only [SliceStable]
    exact (insertStable_perm less a _).trans (List.Perm.cons a ih)

theorem insertStable_descending (a : TokenOwner) (l : List TokenOwner)
    (hl : l.Pairwise (fun x y => x.amount ≥ y.amount)) :
    (insertStable lessByAmount a l).Pairwise (fun x y => x.amount ≥ y.amount) := by
  induction l with
  | nil => simp [insertStable]
  | cons b l ih =>
    have hb := List.pairwise_cons.1 hl
    by_cases hc : b.amount > a.amount
    · have hless : lessByAmount b a = true := by simp [lessByAmount, hc]
      simp only [insertStable, hless, if_true]
      refine List.pairwise_cons.2 ⟨?_, ih hb.2⟩
      intro y hy
      rcases List.mem_cons.1 ((insertStable_perm lessByAmount a l).subset hy) with e | hy
      · subst e
        exact le_of_lt hc
      · exact hb.1 y hy
    · have hless : lessByAmount b a = false := by simp [lessByAmount, hc]
      simp only [insertStable, hless]
      refine List.pairwise_cons.2 ⟨?_, hl⟩
      intro y hy
      have hab : a.amount ≥ b.amount := not_lt.1 hc
      rcases List.mem_cons.1 hy with e | hy
      · subst e
        exact hab
      · exact le_trans (hb.1 y hy) hab

theorem SliceStable_descending (l : List TokenOwner) :
    (SliceStable lessByAmount l).Pairwise (fun x y => x.amount ≥ y.amount) := by
  induction l with
  | nil => simp [SliceStable]
  | cons a l ih =>
    simp only [SliceStable]
    exact insertStable_descending a _ ih

/-! ## Lemmas on `totalAndArrayFromMap` -/

theorem accumulateLoop_eq (holders : List (String × Int)) (arr : List TokenOwner)
    (total : Int) :
    accumulateLoop holders arr total =
      (arr ++ holders.map ownerOfEntry,
        total + (holders.map (fun p => Int.ediv p.2 decimals)).sum) := by
  induction holders generalizing arr total with
  | nil => simp [accumulateLoop]
  | cons p rest ih =>
    obtain ⟨addr, tokens⟩ := p
    simp only [accumulateLoop, ih, List.map_cons, List.sum_cons, List.append_assoc,
      List.singleton_append, ownerOfEntry]
    rw [add_assoc]

theorem totalAndArrayFromMap_total (holders : List (String × Int)) :
    (totalAndArrayFromMap holders).2 = (holders.map (fun p => Int.ediv p.2 decimals)).sum := by
  simp [totalAndArrayFromMap, accumulateLoop_eq]

theorem totalAndArrayFromMap_array (holders : List (String × Int)) :
    (totalAndArrayFromMap holders).1 =
      (SliceStable lessByAmount (holders.map ownerOfEntry)).map
        (fun holder => TokenOwner.mk holder.address holder.amount
          (percentOf holder.amount (totalAndArrayFromMap holders).2)) := by
  simp [totalAndArrayFromMap, accumulateLoop_eq]

theorem totalAndArrayFromMap_entries (holders : List (String × Int)) :
    ((totalAndArrayFromMap holders).1.map (fun o => (o.address, o.amount))).Perm
      (holders.map (fun p => (p.1, Int.ediv p.2 decimals))) := by
  rw [totalAndArrayFromMap_array, List.map_map]
  have h := (SliceStable_perm lessByAmount (holders.map ownerOfEntry)).map
    (fun o : TokenOwner => (o.address, o.amount))
  simpa [Function.comp_def, ownerOfEntry, List.map_map] using h

theorem totalAndArrayFromMap_amounts (holders : List (String × Int)) :
    (totalAndArrayFromMap holders).1.map (fun o => o.amount) =
      (SliceStable lessByAmount (holders.map ownerOfEntry)).map (fun o => o.amount) := by
  rw [totalAndArrayFromMap_array, List.map_map]
  rfl

theorem totalAndArrayFromMap_descending (holders : List (String × Int)) :
    (totalAndArrayFromMap holders).1.Pairwise (fun x y => x.amount ≥ y.amount) := by
  rw [totalAndArrayFromMap_array]
  exact List.Pairwise.map _ (fun _ _ h => h) (SliceStable_descending _)

theorem decimals_eq : decimals = 10 ^ 18 := by decide

/-! ## Lemmas on `formatStats` -/

theorem formatStatsLoop_cons (len : Nat) (holder : TokenOwner) (rest : List TokenOwner)
    (i : Nat) (p : Option ℚ) (a : Nat) :
    formatStatsLoop len (holder :: rest) i p a =
      printedAt len i (addPercent p holder.percent) ((a + Uint64 holder.amount) % 2 ^ 64) ++
        formatStatsLoop len rest (i + 1) (addPercent p holder.percent)
          ((a + Uint64 holder.amount) % 2 ^ 64) := rfl

theorem cumulativeAmount_concat (pre : List TokenOwner) (holder : TokenOwner) :
    cumulativeAmount (pre ++ [holder]) =
      (cumulativeAmount pre + Uint64 holder.amount) % 2 ^ 64 := by
  simp [cumulativeAmount, Nat.add_mod]

theorem cumulativePercent_concat (pre : List TokenOwner) (holder : TokenOwner) :
    cumulativePercent (pre ++ [holder]) = addPercent (cumulativePercent pre) holder.percent := by
  simp [cumulativePercent, List.foldl_append]

theorem formatStatsLoop_eq (len : Nat) (l pre : List TokenOwner) (i : Nat) :
    formatStatsLoop len l i (cumulativePercent pre) (cumulativeAmount pre) =
      (List.range l.length).flatMap (fun j =>
        printedAt len (i + j) (cumulativePercent (pre ++ l.take (j + 1)))
          (cumulativeAmount (pre ++ l.take (j + 1)))) := by
  induction l generalizing pre i with
  | nil => simp [formatStatsLoop]
  | cons holder rest ih =>
    rw [formatStatsLoop_cons, ← cumulativeAmount_concat, ← cumulativePercent_concat,
      ih (pre ++ [holder]) (i + 1), List.length_cons, List.range_succ_eq_map,
      List.flatMap_cons, List.flatMap_map]
    simp [Nat.add_assoc, Nat.add_comm 1]

theorem formatStats_eq (holders : List TokenOwner) :
    formatStats holders =
      (List.range holders.length).flatMap (fun j =>
        printedAt holders.length j (cumulativePercent (holders.take (j + 1)))
          (cumulativeAmount (holders.take (j + 1)))) := by
  have h := formatStatsLoop_eq holders.length holders [] 0
  simpa [formatStats, cumulativePercent, cumulativeAmount] using h

theorem printedAt_cases (len i : Nat) (p : Option ℚ) (a : Nat) :
    (i + 1 ∈ cutoffs ∧ printedAt len i p a = [Line.top (i + 1) p a]) ∨
      (i + 1 ∉ cutoffs ∧ i = len - 1 ∧ printedAt len i p a = [Line.holdersInTotal len a]) ∨
      (i + 1 ∉ cutoffs ∧ i ≠ len - 1 ∧ printedAt len i p a = []) := by
  by_cases h0 : i = 0
  · subst h0; left; simp [cutoffs, printedAt]
  by_cases h4 : i = 4
  · subst h4; left; simp [cutoffs, printedAt]
  by_cases h9 : i = 9
  · subst h9; left; simp [cutoffs, printedAt]
  by_cases h24 : i = 24
  · subst h24; left; simp [cutoffs, printedAt]
  by_cases h49 : i = 49
  · subst h49; left; simp [cutoffs, printedAt]
  by_cases h99 : i = 99
  · subst h99; left; simp [cutoffs, printedAt]
  by_cases h249 : i = 249
  · subst h249; left; simp [cutoffs, printedAt]
  have hnot : i + 1 ∉ cutoffs := by
    simp only [cutoffs, List.mem_cons, List.mem_singleton, List.mem_nil_iff, or_false]
    omega
  right
  by_cases hl : i = len - 1
  · left
    refine ⟨hnot, hl, ?_⟩
    simp only [printedAt, h0, h4, h9, h24, h49, h99, h249, if_false]
    rw [if_pos hl]
  · right
    refine ⟨hnot, hl, ?_⟩
    simp only [printedAt, h0, h4, h9, h24, h49, h99, h249, if_false]
    rw [if_neg hl]

theorem topRank_printedAt (len i : Nat) (p : Option ℚ) (a : Nat) :
    (printedAt len i p a).filterMap topRank = if i + 1 ∈ cutoffs then [i + 1] else [] := by
  rcases printedAt_cases len i p a with ⟨h1, h2⟩ | ⟨h1, _, h2⟩ | ⟨h1, _, h2⟩
  · rw [h2, if_pos h1]; rfl
  · rw [h2, if_neg h1]; rfl
  · rw [h2, if_neg h1]; rfl

theorem cutoffs_filter_succ (n : Nat) :
    cutoffs.filter (fun N => decide (N ≤ n + 1)) =
      cutoffs.filter (fun N => decide (N ≤ n)) ++ (if n + 1 ∈ cutoffs then [n + 1] else []) := by
  by_cases h : n + 1 ∈ cutoffs
  · rw [if_pos h]
    simp only [cutoffs, List.mem_cons, List.mem_singleton, List.mem_nil_iff, or_false] at h
    rcases h with h | h | h | h | h | h | h <;>
      (have hn : n = n + 1 - 1 := by omega) <;> rw [h] at hn <;> subst hn <;> decide
  · rw [if_neg h, List.append_nil]
    apply List.filter_congr
    intro N hN
    have hne : N ≠ n + 1 := fun e => h (e ▸ hN)
    simp only [decide_eq_decide]
    omega

theorem topRank_range (n : Nat) :
    (List.range n).flatMap (fun j => if j + 1 ∈ cutoffs then [j + 1] else []) =
      cutoffs.filter (fun N => decide (N ≤ n)) := by
  induction n with
  | zero => decide
  | succ n ih =>
    rw [List.range_succ, List.flatMap_append, ih, cutoffs_filter_succ]
    simp

theorem formatStats_topRanks (holders : List TokenOwner) :
    (formatStats holders).filterMap topRank =
      cutoffs.filter (fun N => decide (N ≤ holders.length)) := by
  rw [formatStats_eq, List.filterMap_flatMap]
  simp only [topRank_printedAt]
  exact topRank_range _

theorem mem_formatStats (holders : List TokenOwner) (line : Line) :
    line ∈ formatStats holders ↔
      ∃ j, j < holders.length ∧
        line ∈ printedAt holders.length j (cumulativePercent (holders.take (j + 1)))
          (cumulativeAmount (holders.take (j + 1))) := by
  rw [formatStats_eq, List.mem_flatMap]
  simp [List.mem_range]

theorem getLast_flatMap_range {α : Type} (f : Nat → List α) (k : Nat) (hne : f k ≠ []) :
    ((List.range (k + 1)).flatMap f).getLast? = (f k).getLast? := by
  rw [List.range_succ, List.flatMap_append]
  simp only [List.flatMap_cons, List.flatMap_nil, List.append_nil]
  rw [List.getLast?_append]
  cases hq : (f k).getLast? with
  | none => exact absurd (List.getLast?_eq_none_iff.1 hq) hne
  | some x => rfl

theorem formatStats_getLast (holders : List TokenOwner) (hne : holders ≠ []) :
    printedAt holders.length (holders.length - 1) (cumulativePercent holders)
        (cumulativeAmount holders) ≠ [] ∧
      (formatStats holders).getLast? =
        (printedAt holders.length (holders.length - 1) (cumulativePercent holders)
          (cumulativeAmount holders)).getLast? := by
  have hpos : 0 < holders.length := List.length_pos.2 hne
  obtain ⟨k, hk⟩ : ∃ k, holders.length = k + 1 := ⟨holders.length - 1, by omega⟩
  have hne2 : printedAt holders.length (holders.length - 1) (cumulativePercent holders)
      (cumulativeAmount holders) ≠ [] := by
    rcases printedAt_cases holders.length (holders.length - 1) (cumulativePercent holders)
      (cumulativeAmount holders) with ⟨_, h2⟩ | ⟨_, _, h2⟩ | ⟨_, h1, _⟩
    · rw [h2]; simp
    · rw [h2]; simp
    · exact absurd rfl h1
  refine ⟨hne2, ?_⟩
  have htake : holders.take (k + 1) = holders := by
    rw [← hk]; exact List.take_length holders
  have hkk : holders.length - 1 = k := by omega
  rw [hkk] at hne2 ⊢
  have hfk : (fun j => printedAt holders.length j (cumulativePercent (holders.take (j + 1)))
      (cumulativeAmount (holders.take (j + 1)))) k ≠ [] := by
    simpa [htake] using hne2
  have h := getLast_flatMap_range
    (fun j => printedAt holders.length j (cumulativePercent (holders.take (j + 1)))
      (cumulativeAmount (holders.take (j + 1)))) k hfk
  rw [formatStats_eq]
  conv_lhs => rw [hk]
  simp only [htake] at h
  rw [← h, hk]

theorem flatMap_range_eq_nil {α : Type} (f : Nat → List α) (k : Nat)
    (h : ∀ j, j < k → f j = []) : (List.range k).flatMap f = [] := by
  induction k with
  | zero => rfl
  | succ k ih =>
    rw [List.range_succ, List.flatMap_append, ih (fun j hj => h j (Nat.lt_succ_of_lt hj))]
    simp [h k (Nat.lt_succ_self k)]

theorem grandTotal_printedAt (len i : Nat) (p : Option ℚ) (a : Nat) :
    (printedAt len i p a).filterMap grandTotal =
      if i + 1 ∉ cutoffs ∧ i = len - 1 then [len] else [] := by
  rcases printedAt_cases len i p a with ⟨h1, h2⟩ | ⟨h1, h3, h2⟩ | ⟨h1, h3, h2⟩
  · rw [h2, if_neg (fun h => h.1 h1)]; rfl
  · rw [h2, if_pos ⟨h1, h3⟩]; rfl
  · rw [h2, if_neg (fun h => h3 h.2)]; rfl

theorem formatStats_grandTotals (holders : List TokenOwner) :
    (formatStats holders).filterMap grandTotal =
      if holders.length = 0 ∨ holders.length ∈ cutoffs then [] else [holders.length] := by
  rw [formatStats_eq, List.filterMap_flatMap]
  simp only [grandTotal_printedAt]
  generalize holders.length = n
  cases n with
  | zero => simp
  | succ k =>
    rw [List.range_succ, List.flatMap_append, flatMap_range_eq_nil]
    · by_cases hc : k + 1 ∈ cutoffs
      · simp [hc]
      · simp [hc]
    · intro j hj
      have hjk : ¬ j = k := by omega
      simp [hjk]

theorem sum_amounts_nonneg (l : List TokenOwner) (h : ∀ o ∈ l, 0 ≤ o.amount) :
    0 ≤ (l.map (fun o => o.amount)).sum := by
  apply List.sum_nonneg
  intro x hx
  obtain ⟨o, ho, rfl⟩ := List.mem_map.1 hx
  exact h o ho

theorem Uint64_of_nonneg (x : Int) (h0 : 0 ≤ x) (h64 : x < 2 ^ 64) : (Uint64 x : Int) = x := by
  unfold Uint64
  have h1 : (x.natAbs : Int) = x := Int.natAbs_of_nonneg h0
  have h2 : x.natAbs < 2 ^ 64 := by
    have : (x.natAbs : Int) < 2 ^ 64 := by rw [h1]; exact h64
    exact_mod_cast this
  rw [Nat.mod_eq_of_lt h2, h1]

theorem sum_Uint64_of_nonneg (l : List TokenOwner) (h : ∀ o ∈ l, 0 ≤ o.amount)
    (hb : (l.map (fun o => o.amount)).sum < 2 ^ 64) :
    (((l.map (fun o => Uint64 o.amount)).sum : Nat) : Int) = (l.map (fun o => o.amount)).sum := by
  induction l with
  | nil => simp
  | cons o l ih =>
    have ho : 0 ≤ o.amount := h o (List.mem_cons_self _ _)
    have hl : ∀ x ∈ l, 0 ≤ x.amount := fun x hx => h x (List.mem_cons_of_mem _ hx)
    have hs := sum_amounts_nonneg l hl
    simp only [List.map_cons, List.sum_cons] at hb ⊢
    rw [Nat.cast_add, ih hl (by omega), Uint64_of_nonneg o.amount ho (by omega)]

theorem cumulativeAmount_of_nonneg (l : List TokenOwner) (h : ∀ o ∈ l, 0 ≤ o.amount)
    (hb : (l.map (fun o => o.amount)).sum < 2 ^ 64) :
    (cumulativeAmount l : Int) = (l.map (fun o => o.amount)).sum := by
  have h1 := sum_Uint64_of_nonneg l h hb
  have h2 : (l.map (fun o => Uint64 o.amount)).sum < 2 ^ 64 := by
    have : (((l.map (fun o => Uint64 o.amount)).sum : Nat) : Int) < 2 ^ 64 := by
      rw [h1]; exact hb
    exact_mod_cast this
  rw [cumulativeAmount, Nat.mod_eq_of_lt h2, h1]

theorem sum_take_le (l : List TokenOwner) (h : ∀ o ∈ l, 0 ≤ o.amount) (N : Nat) :
    ((l.take N).map (fun o => o.amount)).sum ≤ (l.map (fun o => o.amount)).sum := by
  have hsplit : (l.map (fun o => o.amount)).sum =
      ((l.take N).map (fun o => o.amount)).sum + ((l.drop N).map (fun o => o.amount)).sum := by
    rw [← List.sum_append, ← List.map_append, List.take_append_drop]
  have hd := sum_amounts_nonneg (l.drop N) (fun o ho => h o (List.mem_of_mem_drop ho))
  omega

theorem totalAndArrayFromMap_sum (holders : List (String × Int)) :
    ((totalAndArrayFromMap holders).1.map (fun o => o.amount)).sum =
      (totalAndArrayFromMap holders).2 := by
  rw [totalAndArrayFromMap_total, totalAndArrayFromMap_amounts]
  have h := ((SliceStable_perm lessByAmount (holders.map ownerOfEntry)).map
    (fun o : TokenOwner => o.amount)).sum_eq
  rw [h, List.map_map]
  rfl

theorem totalAndArrayFromMap_length (holders : List (String × Int)) :
    (totalAndArrayFromMap holders).1.length = holders.length := by
  have h := (totalAndArrayFromMap_entries holders).length_eq
  simpa using h

theorem totalAndArrayFromMap_nonneg (holders : List (String × Int))
    (h : ∀ p ∈ holders, 0 ≤ p.2) : ∀ o ∈ (totalAndArrayFromMap holders).1, 0 ≤ o.amount := by
  intro o ho
  have hmem : (o.address, o.amount) ∈
      (totalAndArrayFromMap holders).1.map (fun o => (o.address, o.amount)) :=
    List.mem_map.2 ⟨o, ho, rfl⟩
  obtain ⟨p, hp, hpe⟩ := List.mem_map.1 ((totalAndArrayFromMap_entries holders).subset hmem)
  simp only [Prod.mk.injEq] at hpe
  rw [← hpe.2]
  exact Int.ediv_nonneg (h p hp) (by decide)

/-! ## Lemmas on float64 rounding -/

theorem roundHalfEven_intCast (z : Int) : roundHalfEven (z : ℚ) = z := by
  simp [roundHalfEven]

theorem roundHalfEven_error (x : ℚ) : |(roundHalfEven x : ℚ) - x| ≤ 1 / 2 := by
  unfold roundHalfEven
  have h1 : (⌊x⌋ : ℚ) ≤ x := Int.floor_le x
  have h2 : x < ⌊x⌋ + 1 := Int.lt_floor_add_one x
  simp only
  split_ifs with ha hb hc
  · rw [abs_le]; constructor <;> linarith
  · push_cast; rw [abs_le]; constructor <;> linarith
  · rw [abs_le]; constructor <;> linarith
  · push_cast; rw [abs_le]; constructor <;> linarith

theorem roundHalfEven_nonneg (x : ℚ) (hx : 0 ≤ x) : 0 ≤ roundHalfEven x := by
  unfold roundHalfEven
  have h0 : 0 ≤ ⌊x⌋ := Int.floor_nonneg.2 hx
  simp only
  split_ifs <;> omega

theorem binade_le_of_lt (q : ℚ) (hq : q ≠ 0) (x : Int) (hx : |q| < 2 ^ x) (h2 : -1022 < x) :
    binade q < x := by
  unfold binade
  have hpos : 0 < |q| := abs_pos.2 hq
  have := (Int.lt_zpow_iff_log_lt (b := 2) (by norm_num) hpos).1 (by exact_mod_cast hx)
  exact max_lt this h2

theorem zpow_binade_le (q : ℚ) (hq : (2 : ℚ) ^ (-1022 : Int) ≤ |q|) :
    -1022 ≤ binade q ∧ (2 : ℚ) ^ binade q ≤ |q| := by
  have hpos : 0 < |q| := lt_of_lt_of_le (by positivity) hq
  have h1 : (-1022 : Int) ≤ Int.log 2 |q| :=
    (Int.zpow_le_iff_le_log (b := 2) (by norm_num) hpos).1 (by exact_mod_cast hq)
  have h2 : binade q = Int.log 2 |q| := max_eq_left h1
  rw [h2]
  refine ⟨h1, ?_⟩
  have := Int.zpow_log_le_self (b := 2) (by norm_num) hpos
  exact_mod_cast this

theorem roundNearest_dyadic (m k : Int) (hm : |m| < 2 ^ 53) (hk : -1074 ≤ k) :
    roundNearest ((m : ℚ) * 2 ^ k) = (m : ℚ) * 2 ^ k := by
  unfold roundNearest
  split_ifs with h0
  · exact h0.symm
  · have hm0 : m ≠ 0 := by
      intro e
      apply h0
      simp [e]
    set q : ℚ := (m : ℚ) * 2 ^ k with hq
    have habs : |q| < 2 ^ (k + 53) := by
      rw [hq, abs_mul, abs_of_pos (by positivity : (0 : ℚ) < 2 ^ k), zpow_add₀ (by norm_num)]
      rw [mul_comm]
      apply mul_lt_mul_of_pos_left _ (by positivity)
      have : ((|m| : Int) : ℚ) < ((2 ^ 53 : Int) : ℚ) := by exact_mod_cast hm
      push_cast at this
      exact_mod_cast this
    have hb : binade q < k + 53 := binade_le_of_lt q h0 (k + 53) habs (by omega)
    obtain ⟨j, hj⟩ : ∃ j : ℕ, (j : Int) = k - (binade q - 52) := ⟨(k - (binade q - 52)).toNat, by omega⟩
    have hdiv : q / 2 ^ (binade q - 52) = ((m * 2 ^ j : Int) : ℚ) := by
      rw [hq, mul_div_assoc, ← zpow_sub₀ (by norm_num), ← hj]
      push_cast
      rw [zpow_natCast]
    rw [hdiv, roundHalfEven_intCast]
    push_cast
    rw [mul_assoc, ← zpow_natCast, hj, ← zpow_add₀ (by norm_num)]
    congr 2
    ring

theorem roundNearest_intCast (n : Int) (hn : |n| < 2 ^ 53) : roundNearest (n : ℚ) = n := by
  have := roundNearest_dyadic n 0 hn (by norm_num)
  simpa using this

theorem roundNearest_zero : roundNearest 0 = 0 := by
  simp [roundNearest]

theorem roundNearest_nonneg (q : ℚ) (hq : 0 ≤ q) : 0 ≤ roundNearest q := by
  unfold roundNearest
  split_ifs
  · exact le_refl 0
  · apply mul_nonneg
    · exact_mod_cast roundHalfEven_nonneg _ (div_nonneg hq (by positivity))
    · positivity

theorem roundNearest_error (q : ℚ) (hq : (2 : ℚ) ^ (-1022 : Int) ≤ |q|) :
    |roundNearest q - q| ≤ |q| / 2 ^ 53 := by
  have hne : q ≠ 0 := by
    intro e
    rw [e, abs_zero] at hq
    exact absurd hq (not_le.2 (by positivity))
  obtain ⟨_, hb⟩ := zpow_binade_le q hq
  unfold roundNearest
  rw [if_neg hne]
  have hu : (0 : ℚ) < 2 ^ (binade q - 52) := by positivity
  have herr := roundHalfEven_error (q / 2 ^ (binade q - 52))
  have heq : (roundHalfEven (q / 2 ^ (binade q - 52)) : ℚ) * 2 ^ (binade q - 52) - q =
      ((roundHalfEven (q / 2 ^ (binade q - 52)) : ℚ) - q / 2 ^ (binade q - 52)) *
        2 ^ (binade q - 52) := by
    field_simp
  rw [heq, abs_mul, abs_of_pos hu]
  have h53 : (2 : ℚ) ^ (binade q - 52) = 2 ^ binade q / 2 ^ 53 * 2 := by
    rw [zpow_sub₀ (by norm_num)]
    norm_num
    ring
  calc |(roundHalfEven (q / 2 ^ (binade q - 52)) : ℚ) - q / 2 ^ (binade q - 52)| *
        2 ^ (binade q - 52)
      ≤ 1 / 2 * 2 ^ (binade q - 52) := mul_le_mul_of_nonneg_right herr (le_of_lt hu)
    _ = 2 ^ binade q / 2 ^ 53 := by rw [h53]; ring
    _ ≤ |q| / 2 ^ 53 := div_le_div_of_nonneg_right hb (by positivity)

theorem round64_dyadic (m k : Int) (hm : |m| < 2 ^ 53) (hk : -1074 ≤ k)
    (hlt : |(m : ℚ) * 2 ^ k| < 2 ^ 1024) :
    round64 ((m : ℚ) * 2 ^ k) = some ((m : ℚ) * 2 ^ k) := by
  unfold round64
  rw [roundNearest_dyadic m k hm hk, if_pos hlt]

theorem round64_intCast (n : Int) (hn : |n| < 2 ^ 53) : round64 (n : ℚ) = some (n : ℚ) := by
  have hlt : |((n : ℚ)) * 2 ^ (0 : Int)| < 2 ^ 1024 := by
    rw [zpow_zero, mul_one]
    have h1 : |(n : ℚ)| < 2 ^ 53 := by exact_mod_cast hn
    exact lt_trans h1 (by norm_num)
  have := round64_dyadic n 0 hn (by norm_num) hlt
  simpa using this

theorem round64_zero : round64 0 = some 0 := by
  simp [round64, roundNearest_zero]

theorem float64OfInt64_exact (n : Int) (hn : |n| < 2 ^ 53) : float64OfInt64 n = n :=
  roundNearest_intCast n hn

theorem percentOf_3_6 : percentOf 3 6 = some 50 := by
  have e3 : Int64 3 = 3 := by decide
  have e6 : Int64 6 = 6 := by decide
  have hq : round64 ((3 : ℚ) / 6) = some (1 / 2) := by
    have := round64_dyadic 1 (-1) (by norm_num) (by norm_num) (by norm_num [abs_of_pos])
    norm_num at this ⊢
    exact this
  have h50 : round64 ((1 : ℚ) / 2 * 100) = some 50 := by
    have := round64_intCast 50 (by norm_num)
    norm_num at this ⊢
    exact this
  unfold percentOf
  rw [e3, e6, if_neg (by norm_num), float64OfInt64_exact 3 (by norm_num),
    float64OfInt64_exact 6 (by norm_num)]
  push_cast
  rw [hq, Option.some_bind, h50]

theorem percentOf_3_3 : percentOf 3 3 = some 100 := by
  have e3 : Int64 3 = 3 := by decide
  have hq : round64 ((3 : ℚ) / 3) = some 1 := by
    have := round64_intCast 1 (by norm_num)
    norm_num at this ⊢
    exact this
  have h100 : round64 ((1 : ℚ) * 100) = some 100 := by
    have := round64_intCast 100 (by norm_num)
    norm_num at this ⊢
    exact this
  unfold percentOf
  rw [e3, if_neg (by norm_num), float64OfInt64_exact 3 (by norm_num)]
  push_cast
  rw [hq, Option.some_bind, h100]

/-! ## Lemmas on percentages -/

theorem Int64_of_range (x : Int) (hlo : -2 ^ 63 ≤ x) (hhi : x < 2 ^ 63) : Int64 x = x := by
  unfold Int64
  rw [Int.emod_eq_of_lt (by omega) (by omega)]
  omega

theorem totalAndArrayFromMap_percent (holders : List (String × Int)) :
    ∀ o ∈ (totalAndArrayFromMap holders).1,
      o.percent = percentOf o.amount (totalAndArrayFromMap holders).2 := by
  intro o ho
  rw [totalAndArrayFromMap_array] at ho
  obtain ⟨h, _, rfl⟩ := List.mem_map.1 ho
  rfl

theorem round64_rel (q : ℚ) (h1 : (2 : ℚ) ^ (-1022 : Int) ≤ q) (h2 : q ≤ 2 ^ 1023) :
    ∃ r, round64 q = some r ∧ q * (1 - unitRoundoff) ≤ r ∧ r ≤ q * (1 + unitRoundoff) := by
  have hpos : 0 < q := lt_of_lt_of_le (by positivity) h1
  have habs : |q| = q := abs_of_pos hpos
  have herr := roundNearest_error q (by rw [habs]; exact h1)
  rw [habs, abs_le] at herr
  obtain ⟨hlo, hhi⟩ := herr
  have hl : q * (1 - unitRoundoff) ≤ roundNearest q := by
    unfold unitRoundoff
    have : q * (1 - 1 / 2 ^ 53) = q - q / 2 ^ 53 := by ring
    rw [this]
    linarith
  have hu : roundNearest q ≤ q * (1 + unitRoundoff) := by
    unfold unitRoundoff
    have : q * (1 + 1 / 2 ^ 53) = q + q / 2 ^ 53 := by ring
    rw [this]
    linarith
  have h0 : 0 ≤ roundNearest q := roundNearest_nonneg q (le_of_lt hpos)
  have hlt : |roundNearest q| < 2 ^ 1024 := by
    rw [abs_of_nonneg h0]
    have h3 : q * (1 + unitRoundoff) ≤ 2 ^ 1023 * (1 + unitRoundoff) :=
      mul_le_mul_of_nonneg_right h2 (by unfold unitRoundoff; positivity)
    have h4 : (2 : ℚ) ^ 1023 * (1 + unitRoundoff) < 2 ^ 1024 := by
      unfold unitRoundoff
      have : (2 : ℚ) ^ 1024 = 2 ^ 1023 * 2 := by norm_num
      rw [this]
      apply mul_lt_mul_of_pos_left _ (by positivity)
      norm_num
    linarith
  exact ⟨roundNearest q, by rw [round64, if_pos hlt], hl, hu⟩

theorem float64OfInt64_rel (x : Int) (h0 : 0 ≤ x) (h63 : x < 2 ^ 63) :
    (x : ℚ) * (1 - unitRoundoff) ≤ float64OfInt64 x ∧
      float64OfInt64 x ≤ (x : ℚ) * (1 + unitRoundoff) := by
  unfold float64OfInt64
  rcases eq_or_lt_of_le h0 with h | h
  · rw [← h]
    simp [roundNearest_zero]
  · have h1 : (1 : ℚ) ≤ x := by exact_mod_cast h
    have h2 : (x : ℚ) ≤ 2 ^ 1023 := by
      have : (x : ℚ) < 2 ^ 63 := by exact_mod_cast h63
      have h3 : (2 : ℚ) ^ 63 ≤ 2 ^ 1023 := by norm_num
      linarith
    have h3 : (2 : ℚ) ^ (-1022 : Int) ≤ x := by
      have : (2 : ℚ) ^ (-1022 : Int) ≤ 1 := by
        rw [zpow_neg]
        apply inv_le_one_of_one_le₀
        norm_num
      linarith
    obtain ⟨r, hr, hl, hu⟩ := round64_rel x h3 h2
    have : r = roundNearest (x : ℚ) := by
      unfold round64 at hr
      split_ifs at hr
      exact (Option.some.inj hr).symm
    rw [← this]
    exact ⟨hl, hu⟩

theorem one_add_pow_le (k : Nat) (hk : k ≤ 2 ^ 52) :
    (1 + unitRoundoff) ^ k ≤ 1 + 2 * k * unitRoundoff := by
  have hu : (0 : ℚ) ≤ unitRoundoff := by unfold unitRoundoff; positivity
  have key : ∀ j : Nat, (1 + unitRoundoff) ^ j * (1 - j * unitRoundoff) ≤ 1 := by
    intro j
    induction j with
    | zero => simp
    | succ j ih =>
      have hp : (0 : ℚ) ≤ (1 + unitRoundoff) ^ j := by positivity
      have hstep : (1 + unitRoundoff) ^ (j + 1) * (1 - ((j + 1 : Nat) : ℚ) * unitRoundoff) =
          (1 + unitRoundoff) ^ j * (1 - j * unitRoundoff) -
            (1 + unitRoundoff) ^ j * ((j + 1) * unitRoundoff ^ 2) := by
        push_cast
        ring
      rw [hstep]
      have : 0 ≤ (1 + unitRoundoff) ^ j * ((j + 1) * unitRoundoff ^ 2) := by positivity
      linarith
  have hku : (k : ℚ) * unitRoundoff ≤ 1 / 2 := by
    unfold unitRoundoff
    have : (k : ℚ) ≤ 2 ^ 52 := by exact_mod_cast hk
    rw [mul_one_div, div_le_iff₀ (by positivity)]
    calc (k : ℚ) ≤ 2 ^ 52 := this
      _ = 1 / 2 * 2 ^ 53 := by norm_num
  have h1 := key k
  have hpos : (0 : ℚ) < 1 - k * unitRoundoff := by linarith
  have h2 : (1 + unitRoundoff) ^ k ≤ 1 / (1 - k * unitRoundoff) := by
    rw [le_div_iff₀ hpos]
    exact h1
  have h3 : 1 / (1 - (k : ℚ) * unitRoundoff) ≤ 1 + 2 * k * unitRoundoff := by
    rw [div_le_iff₀ hpos]
    have hk0 : (0 : ℚ) ≤ (k : ℚ) * unitRoundoff := by positivity
    nlinarith
  exact le_trans h2 h3

theorem one_sub_pow_ge (k : Nat) : 1 - k * unitRoundoff ≤ (1 - unitRoundoff) ^ k := by
  have hu : (-1 : ℚ) ≤ -unitRoundoff := by
    unfold unitRoundoff
    norm_num
  have := one_add_mul_le_pow (by linarith : (-2 : ℚ) ≤ -unitRoundoff) k
  have e1 : (1 : ℚ) + k * -unitRoundoff = 1 - k * unitRoundoff := by ring
  have e2 : (1 : ℚ) + -unitRoundoff = 1 - unitRoundoff := by ring
  rw [e1, e2] at this
  exact this

theorem tiny_le : (2 : ℚ) ^ (-1022 : Int) ≤ 1 / 2 ^ 70 := by
  have h : (2 : ℚ) ^ (-1022 : Int) = 1 / 2 ^ 1022 := by
    have e : (-1022 : Int) = -((1022 : Nat) : Int) := by norm_num
    rw [e, zpow_neg, zpow_natCast, one_div]
  rw [h]
  apply one_div_le_one_div_of_le (by positivity)
  norm_num

theorem percentOf_rel (a T : Int) (ha0 : 0 ≤ a) (haT : a ≤ T) (hT0 : 0 < T)
    (hT : T < 2 ^ 63) :
    ∃ v, percentOf a T = some v ∧
      (a : ℚ) / T * 100 * (1 - unitRoundoff) ^ 5 ≤ v ∧
      v ≤ (a : ℚ) / T * 100 * (1 + unitRoundoff) ^ 5 ∧
      (v = 0 ∨ 1 / 2 ^ 70 ≤ v) := by
  have hIa : Int64 a = a := Int64_of_range a (by omega) (by omega)
  have hIT : Int64 T = T := Int64_of_range T (by omega) hT
  have hTne : Int64 T ≠ 0 := by rw [hIT]; omega
  unfold percentOf
  rw [if_neg hTne, hIa, hIT]
  obtain ⟨htl, htu⟩ := float64OfInt64_rel T (le_of_lt hT0) hT
  obtain ⟨hal, hau⟩ := float64OfInt64_rel a ha0 (by omega)
  have hTq : (1 : ℚ) ≤ T := by exact_mod_cast hT0
  have hTq63 : (T : ℚ) < 2 ^ 63 := by exact_mod_cast hT
  have hu1 : (0 : ℚ) < 1 - unitRoundoff := by unfold unitRoundoff; norm_num
  have hu2 : (0 : ℚ) < 1 + unitRoundoff := by unfold unitRoundoff; norm_num
  have hu3 : (1 : ℚ) - unitRoundoff ≤ 1 := by unfold unitRoundoff; norm_num
  have hu4 : (1 : ℚ) ≤ 1 + unitRoundoff := by unfold unitRoundoff; norm_num
  have hu5 : (1 : ℚ) / 2 ≤ 1 - unitRoundoff := by unfold unitRoundoff; norm_num
  have hu6 : (1 : ℚ) + unitRoundoff ≤ 2 := by unfold unitRoundoff; norm_num
  have hftpos : 0 < float64OfInt64 T := lt_of_lt_of_le (by positivity) htl
  rcases eq_or_lt_of_le ha0 with h | h
  · -- the amount is zero
    have hfa : float64OfInt64 a = 0 := by
      rw [← h]
      simp [float64OfInt64, roundNearest_zero]
    refine ⟨0, ?_, ?_, ?_, Or.inl rfl⟩
    · rw [hfa, zero_div, round64_zero, Option.some_bind, zero_mul, round64_zero]
    · rw [← h]; simp
    · rw [← h]; simp
  · have haq : (1 : ℚ) ≤ a := by exact_mod_cast h
    have haTq : (a : ℚ) ≤ T := by exact_mod_cast haT
    have hTpos : (0 : ℚ) < T := by linarith
    have hx0 : (0 : ℚ) < (a : ℚ) / T := by positivity
    have hx1 : (a : ℚ) / T ≤ 1 := (div_le_one hTpos).2 haTq
    have hxlo : (1 : ℚ) / 2 ^ 63 ≤ (a : ℚ) / T := by
      rw [div_le_div_iff₀ (by positivity) hTpos]
      nlinarith
    have hfapos : 0 < float64OfInt64 a := lt_of_lt_of_le (by positivity) hal
    -- the quotient of the two converted values
    have hqu : float64OfInt64 a / float64OfInt64 T ≤ (a : ℚ) / T * (1 + unitRoundoff) ^ 3 := by
      have h1 : float64OfInt64 a / float64OfInt64 T ≤
          ((a : ℚ) * (1 + unitRoundoff)) / ((T : ℚ) * (1 - unitRoundoff)) :=
        div_le_div₀ (by positivity) hau (by positivity) htl
      have h2 : ((a : ℚ) * (1 + unitRoundoff)) / ((T : ℚ) * (1 - unitRoundoff)) =
          (a : ℚ) / T * ((1 + unitRoundoff) / (1 - unitRoundoff)) := by
        field_simp
      have h3 : (1 + unitRoundoff) / (1 - unitRoundoff) ≤ (1 + unitRoundoff) ^ 3 := by
        rw [div_le_iff₀ hu1]
        unfold unitRoundoff
        norm_num
      rw [h2] at h1
      exact le_trans h1 (mul_le_mul_of_nonneg_left h3 (le_of_lt hx0))
    have hql : (a : ℚ) / T * (1 - unitRoundoff) ^ 2 ≤ float64OfInt64 a / float64OfInt64 T := by
      have h1 : ((a : ℚ) * (1 - unitRoundoff)) / ((T : ℚ) * (1 + unitRoundoff)) ≤
          float64OfInt64 a / float64OfInt64 T :=
        div_le_div₀ (le_of_lt hfapos) hal hftpos htu
      have h2 : ((a : ℚ) * (1 - unitRoundoff)) / ((T : ℚ) * (1 + unitRoundoff)) =
          (a : ℚ) / T * ((1 - unitRoundoff) / (1 + unitRoundoff)) := by
        field_simp
      have h3 : (1 - unitRoundoff) ^ 2 ≤ (1 - unitRoundoff) / (1 + unitRoundoff) := by
        rw [le_div_iff₀ hu2]
        unfold unitRoundoff
        norm_num
      rw [h2] at h1
      exact le_trans (mul_le_mul_of_nonneg_left h3 (le_of_lt hx0)) h1
    set q := float64OfInt64 a / float64OfInt64 T with hq
    have hp3 : (1 + unitRoundoff) ^ 3 ≤ 2 := by unfold unitRoundoff; norm_num
    have hm2 : (1 : ℚ) / 2 ≤ (1 - unitRoundoff) ^ 2 := by unfold unitRoundoff; norm_num
    have hq2 : q ≤ 2 := by
      calc q ≤ (a : ℚ) / T * (1 + unitRoundoff) ^ 3 := hqu
        _ ≤ 1 * 2 := mul_le_mul hx1 hp3 (by positivity) (by norm_num)
        _ = 2 := by norm_num
    have hq64 : (1 : ℚ) / 2 ^ 64 ≤ q := by
      calc (1 : ℚ) / 2 ^ 64 = 1 / 2 ^ 63 * (1 / 2) := by norm_num
        _ ≤ (a : ℚ) / T * (1 - unitRoundoff) ^ 2 :=
          mul_le_mul hxlo hm2 (by norm_num) (le_of_lt hx0)
        _ ≤ q := hql
    have hqpos : 0 < q := lt_of_lt_of_le (by positivity) hq64
    obtain ⟨d, hd, hdl, hdu⟩ := round64_rel q
      (le_trans tiny_le (le_trans (by norm_num) hq64)) (le_trans hq2 (by norm_num))
    have hdpos : 0 < d := lt_of_lt_of_le (by positivity) hdl
    have hd4 : d ≤ 4 := by
      calc d ≤ q * (1 + unitRoundoff) := hdu
        _ ≤ 2 * 2 := mul_le_mul hq2 hu6 (le_of_lt hu2) (by norm_num)
        _ = 4 := by norm_num
    have hd65 : (1 : ℚ) / 2 ^ 65 ≤ d := by
      calc (1 : ℚ) / 2 ^ 65 = 1 / 2 ^ 64 * (1 / 2) := by norm_num
        _ ≤ q * (1 - unitRoundoff) := mul_le_mul hq64 hu5 (by norm_num) (le_of_lt hqpos)
        _ ≤ d := hdl
    obtain ⟨v, hv, hvl, hvu⟩ := round64_rel (d * 100)
      (le_trans tiny_le (by nlinarith)) (by
        have : d * 100 ≤ 400 := by linarith
        exact le_trans this (by norm_num))
    refine ⟨v, ?_, ?_, ?_, Or.inr ?_⟩
    · rw [hd, Option.some_bind, hv]
    · calc (a : ℚ) / T * 100 * (1 - unitRoundoff) ^ 5
          = (a : ℚ) / T * (1 - unitRoundoff) ^ 2 * (1 - unitRoundoff) * 100 *
              (1 - unitRoundoff) * (1 - unitRoundoff) := by ring
        _ ≤ (a : ℚ) / T * (1 - unitRoundoff) ^ 2 * (1 - unitRoundoff) * 100 *
              (1 - unitRoundoff) * 1 :=
          mul_le_mul_of_nonneg_left hu3 (by positivity)
        _ = (a : ℚ) / T * (1 - unitRoundoff) ^ 2 * (1 - unitRoundoff) * 100 *
              (1 - unitRoundoff) := by ring
        _ ≤ q * (1 - unitRoundoff) * 100 * (1 - unitRoundoff) := by
          gcongr
        _ ≤ d * 100 * (1 - unitRoundoff) := by
          gcongr
        _ ≤ v := hvl
    · calc v ≤ d * 100 * (1 + unitRoundoff) := hvu
        _ ≤ q * (1 + unitRoundoff) * 100 * (1 + unitRoundoff) := by
          gcongr
        _ ≤ (a : ℚ) / T * (1 + unitRoundoff) ^ 3 * (1 + unitRoundoff) * 100 *
              (1 + unitRoundoff) := by
          gcongr
        _ = (a : ℚ) / T * 100 * (1 + unitRoundoff) ^ 5 := by ring
    · calc (1 : ℚ) / 2 ^ 70 ≤ 1 / 2 ^ 65 * 100 * (1 / 2) := by norm_num
        _ ≤ d * 100 * (1 - unitRoundoff) := by
          gcongr
        _ ≤ v := hvl

theorem addPercent_rel (s v : ℚ) (hs : s = 0 ∨ 1 / 2 ^ 70 ≤ s) (hv : v = 0 ∨ 1 / 2 ^ 70 ≤ v)
    (hle : s + v ≤ 2 ^ 1023) :
    ∃ t, addPercent (some s) (some v) = some t ∧
      (s + v) * (1 - unitRoundoff) ≤ t ∧ t ≤ (s + v) * (1 + unitRoundoff) ∧
      (t = 0 ∨ 1 / 2 ^ 70 ≤ t) := by
  have hu1 : (0 : ℚ) ≤ unitRoundoff := by unfold unitRoundoff; positivity
  have hu5 : (1 : ℚ) / 2 ≤ 1 - unitRoundoff := by unfold unitRoundoff; norm_num
  have hs0 : 0 ≤ s := by
    rcases hs with h | h
    · rw [h]
    · exact le_trans (by positivity) h
  have hv0 : 0 ≤ v := by
    rcases hv with h | h
    · rw [h]
    · exact le_trans (by positivity) h
  have hexact : ∀ t, t = s + v → (s + v) * (1 - unitRoundoff) ≤ t ∧
      t ≤ (s + v) * (1 + unitRoundoff) := by
    intro t ht
    rw [ht]
    have : 0 ≤ (s + v) * unitRoundoff := mul_nonneg (add_nonneg hs0 hv0) hu1
    constructor <;> linarith
  by_cases h1 : s = 0
  · refine ⟨v, by simp [addPercent, h1], (hexact v (by rw [h1, zero_add])).1,
      (hexact v (by rw [h1, zero_add])).2, hv⟩
  · by_cases h2 : v = 0
    · refine ⟨s, by simp [addPercent, h1, h2], (hexact s (by rw [h2, add_zero])).1,
        (hexact s (by rw [h2, add_zero])).2, hs⟩
    · have hsL : 1 / 2 ^ 70 ≤ s := hs.resolve_left h1
      have hvL : 1 / 2 ^ 70 ≤ v := hv.resolve_left h2
      have hsum : (2 : ℚ) / 2 ^ 70 ≤ s + v := by
        have : (2 : ℚ) / 2 ^ 70 = 1 / 2 ^ 70 + 1 / 2 ^ 70 := by ring
        rw [this]
        exact add_le_add hsL hvL
      obtain ⟨t, ht, htl, htu⟩ := round64_rel (s + v)
        (le_trans tiny_le (le_trans (by norm_num) hsum)) hle
      refine ⟨t, by simp [addPercent, h1, h2, ht], htl, htu, Or.inr ?_⟩
      calc (1 : ℚ) / 2 ^ 70 = 2 / 2 ^ 70 * (1 / 2) := by norm_num
        _ ≤ (s + v) * (1 - unitRoundoff) :=
          mul_le_mul hsum hu5 (by norm_num) (add_nonneg hs0 hv0)
        _ ≤ t := htl

theorem foldl_addPercent_rel (f : TokenOwner → ℚ) (l : List TokenOwner) (s : ℚ)
    (hf : ∀ o ∈ l, o.percent = some (f o) ∧ (f o = 0 ∨ 1 / 2 ^ 70 ≤ f o))
    (hs : s = 0 ∨ 1 / 2 ^ 70 ≤ s)
    (hbound : (s + (l.map f).sum) * (1 + unitRoundoff) ^ l.length ≤ 2 ^ 1023) :
    ∃ t, l.foldl (fun acc o => addPercent acc o.percent) (some s) = some t ∧
      (s + (l.map f).sum) * (1 - unitRoundoff) ^ l.length ≤ t ∧
      t ≤ (s + (l.map f).sum) * (1 + unitRoundoff) ^ l.length ∧
      (t = 0 ∨ 1 / 2 ^ 70 ≤ t) := by
  have hu1 : (0 : ℚ) ≤ unitRoundoff := by unfold unitRoundoff; positivity
  have hu2 : (0 : ℚ) ≤ 1 - unitRoundoff := by unfold unitRoundoff; norm_num
  have hu3 : (1 : ℚ) ≤ 1 + unitRoundoff := by linarith
  induction l generalizing s with
  | nil =>
    refine ⟨s, rfl, ?_, ?_, hs⟩ <;> simp
  | cons o l ih =>
    obtain ⟨ho, hv⟩ := hf o (List.mem_cons_self _ _)
    have hl : ∀ x ∈ l, x.percent = some (f x) ∧ (f x = 0 ∨ 1 / 2 ^ 70 ≤ f x) :=
      fun x hx => hf x (List.mem_cons_of_mem _ hx)
    have hs0 : 0 ≤ s := by
      rcases hs with h | h
      · rw [h]
      · exact le_trans (by positivity) h
    have hv0 : 0 ≤ f o := by
      rcases hv with h | h
      · rw [h]
      · exact le_trans (by positivity) h
    have hrest : 0 ≤ (l.map f).sum := by
      apply List.sum_nonneg
      intro x hx
      obtain ⟨y, hy, rfl⟩ := List.mem_map.1 hx
      rcases (hl y hy).2 with h | h
      · rw [h]
      · exact le_trans (by positivity) h
    simp only [List.map_cons, List.sum_cons, List.length_cons] at hbound ⊢
    have hpow1 : (1 : ℚ) ≤ (1 + unitRoundoff) ^ (l.length + 1) := one_le_pow₀ hu3
    have hle : s + f o ≤ 2 ^ 1023 := by
      have h1 : s + f o ≤ s + (f o + (l.map f).sum) := by linarith
      have h2 : s + (f o + (l.map f).sum) ≤
          (s + (f o + (l.map f).sum)) * (1 + unitRoundoff) ^ (l.length + 1) :=
        le_mul_of_one_le_right (by linarith) hpow1
      linarith
    obtain ⟨t1, ht1, ht1l, ht1u, ht1L⟩ := addPercent_rel s (f o) hs hv hle
    have hup : t1 + (l.map f).sum ≤ (s + (f o + (l.map f).sum)) * (1 + unitRoundoff) := by
      have : 0 ≤ (l.map f).sum * unitRoundoff := mul_nonneg hrest hu1
      nlinarith
    have hlo : (s + (f o + (l.map f).sum)) * (1 - unitRoundoff) ≤ t1 + (l.map f).sum := by
      have : 0 ≤ (l.map f).sum * unitRoundoff := mul_nonneg hrest hu1
      nlinarith
    have hpn : (0 : ℚ) ≤ (1 + unitRoundoff) ^ l.length := pow_nonneg (by linarith) _
    have hmn : (0 : ℚ) ≤ (1 - unitRoundoff) ^ l.length := pow_nonneg hu2 _
    have hb1 : (t1 + (l.map f).sum) * (1 + unitRoundoff) ^ l.length ≤
        (s + (f o + (l.map f).sum)) * (1 + unitRoundoff) ^ (l.length + 1) := by
      calc (t1 + (l.map f).sum) * (1 + unitRoundoff) ^ l.length
          ≤ (s + (f o + (l.map f).sum)) * (1 + unitRoundoff) * (1 + unitRoundoff) ^ l.length :=
            mul_le_mul_of_nonneg_right hup hpn
        _ = (s + (f o + (l.map f).sum)) * (1 + unitRoundoff) ^ (l.length + 1) := by ring
    obtain ⟨t, ht, htl, htu, htL⟩ := ih t1 hl ht1L (le_trans hb1 hbound)
    refine ⟨t, ?_, ?_, le_trans htu hb1, htL⟩
    · rw [List.foldl_cons, ho, ht1, ht]
    · calc (s + (f o + (l.map f).sum)) * (1 - unitRoundoff) ^ (l.length + 1)
          = (s + (f o + (l.map f).sum)) * (1 - unitRoundoff) * (1 - unitRoundoff) ^ l.length := by
            ring
        _ ≤ (t1 + (l.map f).sum) * (1 - unitRoundoff) ^ l.length :=
            mul_le_mul_of_nonneg_right hlo hmn
        _ ≤ t := htl

theorem sum_percent (l : List TokenOwner) (T : ℚ) :
    (l.map (fun o => (o.amount : ℚ) / T * 100)).sum =
      (((l.map (fun o => o.amount)).sum : Int) : ℚ) / T * 100 := by
  induction l with
  | nil => simp
  | cons o l ih =>
    simp only [List.map_cons, List.sum_cons, ih, Int.cast_add]
    ring

theorem amount_le_sum (l : List TokenOwner) (h : ∀ o ∈ l, 0 ≤ o.amount) (o : TokenOwner)
    (ho : o ∈ l) : o.amount ≤ (l.map (fun x => x.amount)).sum := by
  induction l with
  | nil => cases ho
  | cons x l ih =>
    have hx : 0 ≤ x.amount := h x (List.mem_cons_self _ _)
    have hl : ∀ y ∈ l, 0 ≤ y.amount := fun y hy => h y (List.mem_cons_of_mem _ hy)
    have hs := sum_amounts_nonneg l hl
    simp only [List.map_cons, List.sum_cons]
    rcases List.mem_cons.1 ho with e | ho
    · rw [e]; omega
    · have := ih hl ho
      omega

theorem binade_eq (q : ℚ) (e : Int) (he : -1022 ≤ e) (h1 : (2 : ℚ) ^ e ≤ |q|)
    (h2 : |q| < 2 ^ (e + 1)) : binade q = e := by
  have hpos : 0 < |q| := lt_of_lt_of_le (by positivity) h1
  have hlo : e ≤ Int.log 2 |q| :=
    (Int.zpow_le_iff_le_log (b := 2) (by norm_num) hpos).1 (by exact_mod_cast h1)
  have hhi : Int.log 2 |q| < e + 1 :=
    (Int.lt_zpow_iff_log_lt (b := 2) (by norm_num) hpos).1 (by exact_mod_cast h2)
  unfold binade
  rw [max_eq_left (by omega)]
  omega

theorem float64OfInt64_tie : float64OfInt64 9007199254740993 = 9007199254740992 := by
  have hb : binade ((9007199254740993 : Int) : ℚ) = 53 := by
    apply binade_eq _ 53 (by norm_num)
    · rw [abs_of_pos (by norm_num)]
      norm_num
    · rw [abs_of_pos (by norm_num)]
      norm_num
  have hfloor : ⌊((9007199254740993 : Int) : ℚ) / 2 ^ ((53 : Int) - 52)⌋ = 4503599627370496 := by
    rw [Int.floor_eq_iff]
    constructor <;> norm_num
  have hr : roundHalfEven (((9007199254740993 : Int) : ℚ) / 2 ^ ((53 : Int) - 52)) =
      4503599627370496 := by
    unfold roundHalfEven
    simp only [hfloor]
    norm_num
  unfold float64OfInt64 roundNearest
  rw [if_neg (by norm_num), hb, hr]
  norm_num

theorem percentOf_of_steps (a T : Int) (fa ft q v : ℚ) (hT : Int64 T ≠ 0)
    (h1 : float64OfInt64 (Int64 a) = fa) (h2 : float64OfInt64 (Int64 T) = ft)
    (h3 : round64 (fa / ft) = some q) (h4 : round64 (q * 100) = some v) :
    percentOf a T = some v := by
  unfold percentOf
  rw [if_neg hT, h1, h2, h3, Option.some_bind, h4]

theorem percentOf_cancel_pos : percentOf 9007199254740993 1 = some 900719925474099200 := by
  have e1 : Int64 9007199254740993 = 9007199254740993 := by decide
  have e2 : Int64 1 = 1 := by decide
  apply percentOf_of_steps _ _ 9007199254740992 1 9007199254740992 _ (by rw [e2]; decide)
  · rw [e1]
    exact float64OfInt64_tie
  · rw [e2]
    have := float64OfInt64_exact 1 (by norm_num)
    simpa using this
  · have := round64_dyadic 1 53 (by norm_num) (by norm_num) (by norm_num [abs_of_pos])
    norm_num at this ⊢
    exact this
  · have := round64_dyadic 25 55 (by norm_num) (by norm_num) (by norm_num [abs_of_pos])
    norm_num at this ⊢
    exact this

theorem percentOf_cancel_neg :
    percentOf (-9007199254740992) 1 = some (-900719925474099200) := by
  have e1 : Int64 (-9007199254740992) = -9007199254740992 := by decide
  have e2 : Int64 1 = 1 := by decide
  apply percentOf_of_steps _ _ (-9007199254740992) 1 (-9007199254740992) _ (by rw [e2]; decide)
  · rw [e1]
    have := roundNearest_dyadic (-1) 53 (by norm_num) (by norm_num)
    unfold float64OfInt64
    norm_num at this ⊢
    exact this
  · rw [e2]
    have := float64OfInt64_exact 1 (by norm_num)
    simpa using this
  · have := round64_dyadic (-1) 53 (by norm_num) (by norm_num) (by norm_num [abs_of_pos])
    norm_num at this ⊢
    exact this
  · have := round64_dyadic (-25) 55 (by norm_num) (by norm_num) (by norm_num [abs_of_pos])
    norm_num at this ⊢
    exact this

theorem percentOf_zero_one : percentOf 0 1 = some 0 := by
  have e1 : Int64 0 = 0 := by decide
  have e2 : Int64 1 = 1 := by decide
  apply percentOf_of_steps _ _ 0 1 0 _ (by rw [e2]; decide)
  · rw [e1]
    simp [float64OfInt64, roundNearest_zero]
  · rw [e2]
    have := float64OfInt64_exact 1 (by norm_num)
    simpa using this
  · simp [round64_zero]
  · simp [round64_zero]

theorem cumulativePercent_eq (l : List TokenOwner) :
    cumulativePercent l = (l.map (fun o => o.percent)).foldl addPercent (some 0) := by
  rw [cumulativePercent, List.foldl_map]

/-! ## Lemmas on the order of the records -/

theorem depositedBy_perm (toLower : String → String) (pool : Token)
    (txs₁ txs₂ : List Transaction) (h : txs₁.Perm txs₂) (a : String) :
    depositedBy toLower pool txs₁ a = depositedBy toLower pool txs₂ a := by
  unfold depositedBy
  exact ((h.filter _).map _).sum_eq

theorem withdrawnTo_perm (toLower : String → String) (pool : Token)
    (txs₁ txs₂ : List Transaction) (h : txs₁.Perm txs₂) (a : String) :
    withdrawnTo toLower pool txs₁ a = withdrawnTo toLower pool txs₂ a := by
  unfold withdrawnTo
  exact ((h.filter _).map _).sum_eq

theorem tookPart_perm (toLower : String → String) (pool : Token)
    (txs₁ txs₂ : List Transaction) (h : txs₁.Perm txs₂) (a : String) :
    tookPart toLower pool txs₁ a ↔ tookPart toLower pool txs₂ a := by
  unfold tookPart
  constructor
  · rintro ⟨tx, ht, hc⟩
    exact ⟨tx, h.mem_iff.1 ht, hc⟩
  · rintro ⟨tx, ht, hc⟩
    exact ⟨tx, h.mem_iff.2 ht, hc⟩

theorem mem_of_mapGet (holders : List (String × Int)) (k : String) (v : Int)
    (h : mapGet holders k = some v) : (k, v) ∈ holders := by
  induction holders with
  | nil => simp [mapGet] at h
  | cons p rest ih =>
    obtain ⟨k', w⟩ := p
    by_cases hk : k' = k
    · subst hk
      simp only [mapGet, if_true, Option.some.injEq] at h
      subst h
      exact List.mem_cons_self _ _
    · simp only [mapGet, hk, if_false] at h
      exact List.mem_cons_of_mem _ (ih h)

theorem mapGet_isSome_iff (holders : List (String × Int)) (a : String) :
    (∃ v, mapGet holders a = some v) ↔ a ∈ mapKeys holders := by
  constructor
  · rintro ⟨v, hv⟩
    by_contra hc
    rw [(mapGet_eq_none_iff holders a).2 hc] at hv
    cases hv
  · intro ha
    cases hq : mapGet holders a with
    | none => exact absurd ha ((mapGet_eq_none_iff holders a).1 hq)
    | some v => exact ⟨v, rfl⟩

/-! ## Lemmas on letter case -/

theorem toLower_ofNat_lower (n : Nat) (h1 : 65 ≤ n) (h2 : n ≤ 90) :
    (Char.ofNat (n + 32)).toLower = Char.ofNat (n + 32) := by
  interval_cases n <;> rfl

theorem Char_toLower_idem (c : Char) : c.toLower.toLower = c.toLower := by
  by_cases h : 65 ≤ c.toNat ∧ c.toNat ≤ 90
  · have hc : c.toLower = Char.ofNat (c.toNat + 32) := by
      simp only [Char.toLower, ge_iff_le]
      rw [if_pos h]
    rw [hc]
    exact toLower_ofNat_lower _ h.1 h.2
  · have hc : c.toLower = c := by
      simp only [Char.toLower, ge_iff_le]
      rw [if_neg h]
    rw [hc, hc]

theorem asciiToLower_idem (s : String) : asciiToLower (asciiToLower s) = asciiToLower s := by
  unfold asciiToLower
  simp [List.map_map, Function.comp_def, Char_toLower_idem]

theorem holdersLoop_caseVariant (toLower : String → String) (pool pool' : Token)
    (txs txs' : List Transaction)
    (hpool : toLower pool.address = toLower pool'.address) (hsym : pool.symbol = pool'.symbol)
    (hvar : List.Forall₂ (caseVariant toLower) txs txs') (h : List (String × Int)) :
    holdersLoop toLower pool txs h = holdersLoop toLower pool' txs' h := by
  induction hvar generalizing h with
  | nil => rfl
  | @cons tx tx' rest rest' hr _ ih =>
    obtain ⟨hF, hT, hV, hS⟩ := hr
    by_cases hs : tx.TokenSymbol = pool.symbol
    · have hs' : tx'.TokenSymbol = pool'.symbol := by rw [← hS, hs, hsym]
      cases hv : SetString tx.Value with
      | none =>
        have hv' : SetString tx'.Value = none := by rw [← hV, hv]
        rw [holdersLoop_fail toLower pool tx _ h hs hv,
          holdersLoop_fail toLower pool' tx' _ h hs' hv']
      | some value =>
        have hv' : SetString tx'.Value = some value := by rw [← hV, hv]
        by_cases hd : toLower tx.To = toLower pool.address
        · have hd' : toLower tx'.To = toLower pool'.address := by rw [← hT, hd, hpool]
          rw [holdersLoop_deposit toLower pool tx _ h value hs hv hd,
            holdersLoop_deposit toLower pool' tx' _ h value hs' hv' hd', hF, ih]
        · have hd' : toLower tx'.To ≠ toLower pool'.address := by
            rw [← hT, ← hpool]; exact hd
          by_cases hw : toLower tx.From = toLower pool.address
          · have hw' : toLower tx'.From = toLower pool'.address := by rw [← hF, hw, hpool]
            rw [holdersLoop_withdrawal toLower pool tx _ h value hs hv hd hw,
              holdersLoop_withdrawal toLower pool' tx' _ h value hs' hv' hd' hw', hT, ih]
          · have hw' : toLower tx'.From ≠ toLower pool'.address := by
              rw [← hF, ← hpool]; exact hw
            rw [holdersLoop_other toLower pool tx _ h value hs hv hd hw,
              holdersLoop_other toLower pool' tx' _ h value hs' hv' hd' hw', ih]
    · have hs' : tx'.TokenSymbol ≠ pool'.symbol := by rw [← hS, ← hsym]; exact hs
      rw [holdersLoop_skip toLower pool tx _ h hs, holdersLoop_skip toLower pool' tx' _ h hs', ih]

/-! ## Lemmas on the sign of an amount -/

theorem cast_scan_nonneg (r : Option Nat) (value : Int)
    (hv : Option.map (fun n : Int => n) (do let a ← r; pure (a : Int)) = some value) :
    0 ≤ value := by
  cases r with
  | none => cases hv
  | some n =>
    have : (n : Int) = value := by simpa using hv
    rw [← this]
    exact Int.natCast_nonneg n

theorem SetString_nonneg (s : String) (value : Int) (hv : SetString s = some value)
    (hminus : s.data.head? ≠ some '-') : 0 ≤ value := by
  unfold SetString at hv
  split at hv
  · rename_i cs hd
    rw [hd] at hminus
    exact absurd rfl hminus
  · exact cast_scan_nonneg _ value hv
  · exact cast_scan_nonneg _ value hv

theorem scanDigits_isSome (cs : List Char) (acc : Nat) :
    (scanDigits cs acc).isSome = cs.all (fun c => decide ('0' ≤ c ∧ c ≤ '9')) := by
  induction cs generalizing acc with
  | nil => rfl
  | cons c cs ih =>
    by_cases hc : '0' ≤ c ∧ c ≤ '9'
    · simp [scanDigits, digitValue, hc, ih]
    · simp [scanDigits, digitValue, hc]

theorem scanNat_isSome (cs : List Char) : (scanNat cs).isSome = isDigits cs := by
  cases cs with
  | nil => rfl
  | cons c cs =>
    simp only [scanNat, scanDigits_isSome, isDigits, List.isEmpty_cons, Bool.not_false,
      Bool.true_and]

theorem SetString_minus (s : String) (cs : List Char) (h : s.data = '-' :: cs) :
    SetString s = Option.map (fun n : Nat => -(n : Int)) (scanNat cs) := by
  unfold SetString
  split
  · rename_i cs' hd
    rw [h] at hd
    simp only [List.cons.injEq, true_and] at hd
    rw [hd]
    cases scanNat cs' <;> rfl
  · rename_i cs' hd
    rw [h] at hd
    simp at hd
  · rename_i h1 _
    exact absurd h (h1 cs)

theorem SetString_plus (s : String) (cs : List Char) (h : s.data = '+' :: cs) :
    SetString s = Option.map (fun n : Nat => (n : Int)) (scanNat cs) := by
  unfold SetString
  split
  · rename_i cs' hd
    rw [h] at hd
    simp at hd
  · rename_i cs' hd
    rw [h] at hd
    simp only [List.cons.injEq, true_and] at hd
    rw [hd]
    cases scanNat cs' <;> rfl
  · rename_i _ h2
    exact absurd h (h2 cs)

theorem SetString_unsigned (s : String) (h1 : ∀ cs, s.data ≠ '-' :: cs)
    (h2 : ∀ cs, s.data ≠ '+' :: cs) :
    SetString s = Option.map (fun n : Nat => (n : Int)) (scanNat s.data) := by
  unfold SetString
  split
  · rename_i cs hd
    exact absurd hd (h1 cs)
  · rename_i cs hd
    exact absurd hd (h2 cs)
  · cases scanNat s.data <;> rfl

theorem SetString_isSome (s : String) : (SetString s).isSome = isSignedDecimal s := by
  unfold isSignedDecimal
  split
  · rename_i cs hd
    rw [SetString_minus s cs hd, Option.isSome_map', scanNat_isSome]
  · rename_i cs hd
    rw [SetString_plus s cs hd, Option.isSome_map', scanNat_isSome]
  · rename_i h1 h2
    rw [SetString_unsigned s (fun cs hd => h1 cs hd) (fun cs hd => h2 cs hd),
      Option.isSome_map', scanNat_isSome]

theorem SetString_nonpos (s : String) (value : Int) (hv : SetString s = some value)
    (hminus : s.data.head? = some '-') : value ≤ 0 := by
  cases hd : s.data with
  | nil => rw [hd] at hminus; cases hminus
  | cons c cs =>
    rw [hd] at hminus
    simp only [List.head?_cons, Option.some.injEq] at hminus
    subst hminus
    rw [SetString_minus s cs hd] at hv
    cases hq : scanNat cs with
    | none => rw [hq] at hv; cases hv
    | some n =>
      rw [hq] at hv
      simp only [Option.map_some', Option.some.injEq] at hv
      rw [← hv]
      have := Int.natCast_nonneg n
      omega

/-! ## Lemmas on the enumeration order of the map -/

theorem insertStable_filter (v : Int) (a : TokenOwner) (l : List TokenOwner) :
    (insertStable lessByAmount a l).filter (fun o => decide (o.amount = v)) =
      (a :: l).filter (fun o => decide (o.amount = v)) := by
  induction l with
  | nil => rfl
  | cons b l ih =>
    by_cases hc : b.amount > a.amount
    · have hless : lessByAmount b a = true := by simp [lessByAmount, hc]
      simp only [insertStable, hless, if_true]
      rw [List.filter_cons, ih]
      by_cases ha : a.amount = v
      · have hb : ¬ b.amount = v := by omega
        simp [List.filter_cons, ha, hb]
      · simp [List.filter_cons, ha]
    · have hless : lessByAmount b a = false := by simp [lessByAmount, hc]
      simp only [insertStable, hless]
      rfl

theorem SliceStable_filter (v : Int) (l : List TokenOwner) :
    (SliceStable lessByAmount l).filter (fun o => decide (o.amount = v)) =
      l.filter (fun o => decide (o.amount = v)) := by
  induction l with
  | nil => rfl
  | cons a l ih =>
    simp only [SliceStable]
    rw [insertStable_filter, List.filter_cons, List.filter_cons, ih]

theorem totalAndArrayFromMap_stable (holders : List (String × Int)) (v : Int) :
    ((totalAndArrayFromMap holders).1.filter (fun o => decide (o.amount = v))).map
        (fun o => o.address) =
      (holders.filter (fun p => decide (Int.ediv p.2 decimals = v))).map Prod.fst := by
  rw [totalAndArrayFromMap_array, List.filter_map, List.map_map]
  have h1 : ((fun o : TokenOwner => decide (o.amount = v)) ∘
      (fun holder : TokenOwner => TokenOwner.mk holder.address holder.amount
        (percentOf holder.amount (totalAndArrayFromMap holders).2))) =
      (fun o : TokenOwner => decide (o.amount = v)) := rfl
  rw [h1, SliceStable_filter, List.filter_map, List.map_map]
  rfl

theorem totalAndArrayFromMap_total_perm (es₁ es₂ : List (String × Int)) (h : es₁.Perm es₂) :
    (totalAndArrayFromMap es₁).2 = (totalAndArrayFromMap es₂).2 := by
  rw [totalAndArrayFromMap_total, totalAndArrayFromMap_total]
  exact (h.map _).sum_eq

theorem totalAndArrayFromMap_amounts_perm (es₁ es₂ : List (String × Int))
    (h : es₁.Perm es₂) :
    (totalAndArrayFromMap es₁).1.map (fun o => o.amount) =
      (totalAndArrayFromMap es₂).1.map (fun o => o.amount) := by
  have hs : ∀ es : List (String × Int),
      List.Sorted (fun x y : Int => x ≥ y) ((totalAndArrayFromMap es).1.map (fun o => o.amount)) :=
    fun es => List.pairwise_map.2 (totalAndArrayFromMap_descending es)
  have hp : ∀ es : List (String × Int),
      ((totalAndArrayFromMap es).1.map (fun o => o.amount)).Perm
        (es.map (fun p => Int.ediv p.2 decimals)) := by
    intro es
    have := (totalAndArrayFromMap_entries es).map Prod.snd
    simpa [List.map_map, Function.comp_def] using this
  exact List.eq_of_perm_of_sorted (((hp es₁).trans (h.map _)).trans (hp es₂).symm)
    (hs es₁) (hs es₂)

theorem formatStatsLoop_congr (len : Nat) (l₁ l₂ : List TokenOwner)
    (h : l₁.map (fun o => (o.amount, o.percent)) = l₂.map (fun o => (o.amount, o.percent)))
    (i : Nat) (p : Option ℚ) (a : Nat) :
    formatStatsLoop len l₁ i p a = formatStatsLoop len l₂ i p a := by
  induction l₁ generalizing l₂ i p a with
  | nil =>
    cases l₂ with
    | nil => rfl
    | cons b l₂ => simp at h
  | cons x l₁ ih =>
    cases l₂ with
    | nil => simp at h
    | cons y l₂ =>
      simp only [List.map_cons, List.cons.injEq, Prod.mk.injEq] at h
      obtain ⟨⟨ha, hp⟩, ht⟩ := h
      rw [formatStatsLoop_cons, formatStatsLoop_cons, ha, hp, ih l₂ ht]

theorem totalAndArrayFromMap_percents (es : List (String × Int)) :
    (totalAndArrayFromMap es).1.map (fun o => (o.amount, o.percent)) =
      ((totalAndArrayFromMap es).1.map (fun o => o.amount)).map
        (fun x => (x, percentOf x (totalAndArrayFromMap es).2)) := by
  rw [List.map_map]
  apply List.map_congr_left
  intro o ho
  simp only [Function.comp_def, totalAndArrayFromMap_percent es o ho]

/-! ## Lemmas on the loss of the normalisation -/

theorem sum_ediv_bounds (es : List (String × Int)) :
    (es.map (fun p => Int.ediv p.2 decimals)).sum * 1000000000000000000 ≤ (mapValues es).sum ∧
      (mapValues es).sum ≤
        (es.map (fun p => Int.ediv p.2 decimals)).sum * 1000000000000000000 +
          (es.length : Int) * 999999999999999999 := by
  induction es with
  | nil => simp [mapValues]
  | cons p rest ih =>
    have hd : Int.ediv p.2 decimals = p.2 / 1000000000000000000 := by
      rw [decimals_eq]
      rfl
    simp only [mapValues] at ih
    simp only [mapValues, List.map_cons, List.sum_cons, List.length_cons, hd, Nat.cast_add,
      Nat.cast_one]
    omega

/-! ## Claims -/

/-- C1: when every symbol-matching record has a valid base-10 amount,
`holdersFromResponse` returns a map, and the balance it stores for an address
`a` (0 when `a` is not a key) is the sum of the amounts of the deposits whose
lowercased source is `a` minus the sum of the amounts of the withdrawals whose
lowercased destination is `a`; an address that is not a key has net balance 0. -/
theorem holdersFromResponse_balance (toLower : String → String) (pool : Token)
    (txs : List Transaction) (hvalid : validAmounts pool txs) :
    ∃ m, holdersFromResponse toLower txs pool = some m ∧
      (∀ a, (mapGet m a).getD 0 =
        depositedBy toLower pool txs a - withdrawnTo toLower pool txs a) ∧
      (∀ a, a ∉ mapKeys m →
        depositedBy toLower pool txs a - withdrawnTo toLower pool txs a = 0) := by
  obtain ⟨m, hm⟩ := holdersLoop_isSome_of_valid toLower pool txs [] hvalid
  have hbal : ∀ a, (mapGet m a).getD 0 =
      depositedBy toLower pool txs a - withdrawnTo toLower pool txs a := by
    intro a
    have := holdersLoop_balance toLower pool txs [] m hm a
    simpa [mapGet] using this
  refine ⟨m, hm, hbal, ?_⟩
  intro a ha
  rw [← hbal a, (mapGet_eq_none_iff m a).2 ha]
  rfl

/-- Witness of C1: a deposit of 5 by `0xA`, a withdrawal of 2 to `0xa` and a
record of another token. -/
theorem holdersFromResponse_balance_witness :
    validAmounts ⟨"0xPool", "LINK"⟩
        [transfer "0xA" "0xpool" "5" "LINK", transfer "0xPOOL" "0xa" "2" "LINK",
          transfer "0xb" "0xpool" "abc" "YFI"] ∧
      ∃ m, holdersFromResponse asciiToLower
          [transfer "0xA" "0xpool" "5" "LINK", transfer "0xPOOL" "0xa" "2" "LINK",
            transfer "0xb" "0xpool" "abc" "YFI"] ⟨"0xPool", "LINK"⟩ = some m ∧
        (∀ a, (mapGet m a).getD 0 =
          depositedBy asciiToLower ⟨"0xPool", "LINK"⟩
              [transfer "0xA" "0xpool" "5" "LINK", transfer "0xPOOL" "0xa" "2" "LINK",
                transfer "0xb" "0xpool" "abc" "YFI"] a -
            withdrawnTo asciiToLower ⟨"0xPool", "LINK"⟩
              [transfer "0xA" "0xpool" "5" "LINK", transfer "0xPOOL" "0xa" "2" "LINK",
                transfer "0xb" "0xpool" "abc" "YFI"] a) ∧
        (∀ a, a ∉ mapKeys m →
          depositedBy asciiToLower ⟨"0xPool", "LINK"⟩
              [transfer "0xA" "0xpool" "5" "LINK", transfer "0xPOOL" "0xa" "2" "LINK",
                transfer "0xb" "0xpool" "abc" "YFI"] a -
            withdrawnTo asciiToLower ⟨"0xPool", "LINK"⟩
              [transfer "0xA" "0xpool" "5" "LINK", transfer "0xPOOL" "0xa" "2" "LINK",
                transfer "0xb" "0xpool" "abc" "YFI"] a = 0) :=
  ⟨by unfold validAmounts; decide,
    holdersFromResponse_balance asciiToLower ⟨"0xPool", "LINK"⟩ _
      (by unfold validAmounts; decide)⟩

/-- C2: when `holdersFromResponse` returns a map, the sum of all its values is
the sum of the amounts of all deposits into the pool minus the sum of the
amounts of all withdrawals from the pool. -/
theorem holdersFromResponse_sum (toLower : String → String) (pool : Token)
    (txs : List Transaction) (m : List (String × Int))
    (hm : holdersFromResponse toLower txs pool = some m) :
    (mapValues m).sum = totalDeposits toLower pool txs - totalWithdrawals toLower pool txs := by
  have := holdersLoop_sum toLower pool txs [] m hm
  simpa [mapValues] using this

/-- Witness of C2: deposits of 5 and 3, a withdrawal of 2: the balances 3 and 3
sum to 8 - 2. -/
theorem holdersFromResponse_sum_witness :
    holdersFromResponse asciiToLower
        [transfer "0xA" "0xpool" "5" "LINK", transfer "0xB" "0xpool" "3" "LINK",
          transfer "0xPOOL" "0xa" "2" "LINK"] ⟨"0xPool", "LINK"⟩ =
        some [("0xa", 3), ("0xb", 3)] ∧
      (mapValues [("0xa", 3), ("0xb", 3)]).sum =
        totalDeposits asciiToLower ⟨"0xPool", "LINK"⟩
            [transfer "0xA" "0xpool" "5" "LINK", transfer "0xB" "0xpool" "3" "LINK",
              transfer "0xPOOL" "0xa" "2" "LINK"] -
          totalWithdrawals asciiToLower ⟨"0xPool", "LINK"⟩
            [transfer "0xA" "0xpool" "5" "LINK", transfer "0xB" "0xpool" "3" "LINK",
              transfer "0xPOOL" "0xa" "2" "LINK"] :=
  ⟨by decide, holdersFromResponse_sum asciiToLower ⟨"0xPool", "LINK"⟩ _ _ (by decide)⟩

/-- C3 (Scenario A): for the transfers X -> pool of 5*10^18, Y -> pool of
3*10^18 and pool -> X of 2*10^18, with X, Y and the pool pairwise distinct,
`holdersFromResponse` returns a map and, whatever the order in which the map
is enumerated, `totalAndArrayFromMap` returns exactly two ranked holders, X
with 3 whole tokens and Y with 3 whole tokens, each with 50 percent, and the
total 6. -/
theorem scenarioA (toLower : String → String) (pool : Token) (X Y : String)
    (hXY : toLower X ≠ toLower Y) (hX : toLower X ≠ toLower pool.address)
    (_hY : toLower Y ≠ toLower pool.address) :
    ∃ m, holdersFromResponse toLower
        [transfer X pool.address "5000000000000000000" pool.symbol,
          transfer Y pool.address "3000000000000000000" pool.symbol,
          transfer pool.address X "2000000000000000000" pool.symbol] pool = some m ∧
      ∀ es : List (String × Int), es.Perm m →
        (totalAndArrayFromMap es).1.length = 2 ∧
        ((totalAndArrayFromMap es).1.map (fun o => (o.address, o.amount))).Perm
          [(toLower X, 3), (toLower Y, 3)] ∧
        (∀ o ∈ (totalAndArrayFromMap es).1, o.percent = some 50) ∧
        (totalAndArrayFromMap es).2 = 6 := by
  have h5 : SetString "5000000000000000000" = some 5000000000000000000 := by decide
  have h3 : SetString "3000000000000000000" = some 3000000000000000000 := by decide
  have h2 : SetString "2000000000000000000" = some 2000000000000000000 := by decide
  have hYX : ¬ toLower Y = toLower X := fun e => hXY e.symm
  refine ⟨[(toLower X, 3000000000000000000), (toLower Y, 3000000000000000000)], ?_, ?_⟩
  · simp [holdersFromResponse, holdersLoop, transfer, h5, h3, h2, mapGet, mapSet, hX, hXY]
  · intro es hes
    have hcases : es = [(toLower X, 3000000000000000000), (toLower Y, 3000000000000000000)] ∨
        es = [(toLower Y, 3000000000000000000), (toLower X, 3000000000000000000)] := by
      have hlen := hes.length_eq
      match es, hlen with
      | [p, q], _ =>
        have hp := hes.subset (List.mem_cons_self p [q])
        have hq := hes.subset (List.mem_cons_of_mem p (List.mem_cons_self q []))
        have hnd : [p, q].Nodup := hes.nodup_iff.2 (by simp [hXY])
        have hpq : p ≠ q := by
          intro e
          simp [e] at hnd
        simp only [List.mem_cons, List.mem_singleton, List.mem_nil_iff, or_false] at hp hq
        rcases hp with hp | hp <;> rcases hq with hq | hq
        · exact absurd (hp.trans hq.symm) hpq
        · left; rw [hp, hq]
        · right; rw [hp, hq]
        · exact absurd (hp.trans hq.symm) hpq
    have e3 : Int.ediv 3000000000000000000 decimals = 3 := by decide
    rcases hcases with h | h <;> subst h
    · simp [totalAndArrayFromMap, accumulateLoop, SliceStable, insertStable, lessByAmount, e3,
        percentOf_3_6]
    · simp [totalAndArrayFromMap, accumulateLoop, SliceStable, insertStable, lessByAmount, e3,
        percentOf_3_6]
      exact List.Perm.swap _ _ _

/-- Witness of C3: Scenario A with the pool `0xPool`, X = `0xX` and Y = `0xY`. -/
theorem scenarioA_witness :
    (asciiToLower "0xX" ≠ asciiToLower "0xY" ∧
      asciiToLower "0xX" ≠ asciiToLower (Token.mk "0xPool" "LINK").address ∧
      asciiToLower "0xY" ≠ asciiToLower (Token.mk "0xPool" "LINK").address) ∧
    ∃ m, holdersFromResponse asciiToLower
        [transfer "0xX" (Token.mk "0xPool" "LINK").address "5000000000000000000"
            (Token.mk "0xPool" "LINK").symbol,
          transfer "0xY" (Token.mk "0xPool" "LINK").address "3000000000000000000"
            (Token.mk "0xPool" "LINK").symbol,
          transfer (Token.mk "0xPool" "LINK").address "0xX" "2000000000000000000"
            (Token.mk "0xPool" "LINK").symbol] (Token.mk "0xPool" "LINK") = some m ∧
      ∀ es : List (String × Int), es.Perm m →
        (totalAndArrayFromMap es).1.length = 2 ∧
        ((totalAndArrayFromMap es).1.map (fun o => (o.address, o.amount))).Perm
          [(asciiToLower "0xX", 3), (asciiToLower "0xY", 3)] ∧
        (∀ o ∈ (totalAndArrayFromMap es).1, o.percent = some 50) ∧
        (totalAndArrayFromMap es).2 = 6 :=
  ⟨by decide,
    scenarioA asciiToLower (Token.mk "0xPool" "LINK") "0xX" "0xY" (by decide) (by decide)
      (by decide)⟩

/-- C4, as stated, fails: after a deposit of 5 by `0xx` and a withdrawal of 5
to `0xx` the net balance of `0xx` is 0, yet `0xx` is a key of the returned map,
with value 0, and is a ranked holder with amount 0. -/
theorem netZero_holder_is_kept :
    depositedBy asciiToLower ⟨"0xpool", "LINK"⟩
        [transfer "0xx" "0xpool" "5" "LINK", transfer "0xpool" "0xx" "5" "LINK"] "0xx" -
      withdrawnTo asciiToLower ⟨"0xpool", "LINK"⟩
        [transfer "0xx" "0xpool" "5" "LINK", transfer "0xpool" "0xx" "5" "LINK"] "0xx" = 0 ∧
    holdersFromResponse asciiToLower
        [transfer "0xx" "0xpool" "5" "LINK", transfer "0xpool" "0xx" "5" "LINK"]
        ⟨"0xpool", "LINK"⟩ = some [("0xx", 0)] ∧
    "0xx" ∈ mapKeys [("0xx", 0)] ∧
    (totalAndArrayFromMap [("0xx", 0)]).1.map (fun o => (o.address, o.amount)) =
      [("0xx", 0)] := by
  decide

/-- C4, amended: when `holdersFromResponse` returns a map, an address is a key
of it exactly when it is the lowercased source of a deposit or the lowercased
destination of a withdrawal of the list, whatever its net balance, and,
whatever the order in which the map is enumerated, the addresses of the ranked
holders are exactly the keys of the map. -/
theorem holdersFromResponse_keys (toLower : String → String) (pool : Token)
    (txs : List Transaction) (m : List (String × Int))
    (hm : holdersFromResponse toLower txs pool = some m) (a : String) :
    (a ∈ mapKeys m ↔ tookPart toLower pool txs a) ∧
      ∀ es : List (String × Int), es.Perm m →
        (a ∈ (totalAndArrayFromMap es).1.map (fun o => o.address) ↔ a ∈ mapKeys m) := by
  constructor
  · have := holdersLoop_keys toLower pool txs [] m hm a
    simpa [mapKeys] using this
  · intro es hes
    have h1 := (totalAndArrayFromMap_entries es).map Prod.fst
    simp only [List.map_map, Function.comp_def] at h1
    rw [h1.mem_iff]
    exact (hes.map Prod.fst).mem_iff

/-- Witness of C4 amended: the deposit and full withdrawal of `0xx`. -/
theorem holdersFromResponse_keys_witness :
    holdersFromResponse asciiToLower
        [transfer "0xx" "0xpool" "5" "LINK", transfer "0xpool" "0xx" "5" "LINK"]
        ⟨"0xpool", "LINK"⟩ = some [("0xx", 0)] ∧
      ("0xx" ∈ mapKeys [("0xx", 0)] ↔
        tookPart asciiToLower ⟨"0xpool", "LINK"⟩
          [transfer "0xx" "0xpool" "5" "LINK", transfer "0xpool" "0xx" "5" "LINK"] "0xx") ∧
      ∀ es : List (String × Int), es.Perm [("0xx", 0)] →
        ("0xx" ∈ (totalAndArrayFromMap es).1.map (fun o => o.address) ↔
          "0xx" ∈ mapKeys [("0xx", 0)]) :=
  ⟨by decide, holdersFromResponse_keys asciiToLower ⟨"0xpool", "LINK"⟩ _ _ (by decide) "0xx"⟩

/-- C5: `holdersFromResponse` aborts exactly when the list holds a record whose
symbol is that of the pool and whose value is not a base-10 integer, such as
`abc`;
it returns a map exactly when there is no such record; and the report of the pool
is produced exactly when `holdersFromResponse` returns a map, so an abort
leaves no report line for the pool. -/
theorem holdersFromResponse_abort_iff (toLower : String → String) (pool : Token)
    (txs : List Transaction) :
    (holdersFromResponse toLower txs pool = none ↔
        ∃ tx ∈ txs, tx.TokenSymbol = pool.symbol ∧ SetString tx.Value = none) ∧
      ((∃ m, holdersFromResponse toLower txs pool = some m) ↔
        ¬ ∃ tx ∈ txs, tx.TokenSymbol = pool.symbol ∧ SetString tx.Value = none) ∧
      (poolReport toLower txs pool = none ↔ holdersFromResponse toLower txs pool = none) ∧
      SetString "abc" = none ∧
      ∀ pre post : List Transaction, ∀ src dst : String,
        poolReport toLower (pre ++ transfer src dst "abc" pool.symbol :: post) pool = none := by
  have h1 := holdersLoop_eq_none_iff toLower pool txs []
  have h3 : ∀ l, poolReport toLower l pool = none ↔ holdersFromResponse toLower l pool = none := by
    intro l
    unfold poolReport
    cases holdersFromResponse toLower l pool <;> simp
  have habc : SetString "abc" = none := by decide
  refine ⟨h1, ?_, h3 txs, habc, ?_⟩
  · rw [← h1]
    cases hq : holdersLoop toLower pool txs [] with
    | none => simp [holdersFromResponse, hq]
    | some m => simp [holdersFromResponse, hq]
  · intro pre post src dst
    rw [h3]
    refine (holdersLoop_eq_none_iff toLower pool _ []).2
      ⟨transfer src dst "abc" pool.symbol, by simp, rfl, habc⟩

/-- C6: `holdersFromResponse` gives the same outcome on a transfer list and on
its order-preserving sub-list of the records whose symbol is that of the pool;
filtering that sub-list again returns it unchanged; and a record whose symbol
differs from that of the pool, inserted at any position, whatever its endpoints and
value, does not change the outcome. -/
theorem symbolFilter_transparent (toLower : String → String) (pool : Token)
    (txs pre post : List Transaction) (tx : Transaction)
    (hs : tx.TokenSymbol ≠ pool.symbol) :
    holdersFromResponse toLower txs pool =
        holdersFromResponse toLower (filterSymbol pool txs) pool ∧
      filterSymbol pool (filterSymbol pool txs) = filterSymbol pool txs ∧
      holdersFromResponse toLower (pre ++ tx :: post) pool =
        holdersFromResponse toLower (pre ++ post) pool := by
  refine ⟨(holdersLoop_filterSymbol toLower pool txs []).symm, ?_, ?_⟩
  · simp [filterSymbol, List.filter_filter]
  · exact holdersLoop_insert toLower pool pre post tx
      (fun h => holdersLoop_skip toLower pool tx post h hs)

/-- Witness of C6: a `YFI` record with an unparsable value between two `LINK`
records of the pool. -/
theorem symbolFilter_transparent_witness :
    (transfer "0xpool" "0xa" "abc" "YFI").TokenSymbol ≠ (Token.mk "0xpool" "LINK").symbol ∧
      (holdersFromResponse asciiToLower
          [transfer "0xa" "0xpool" "5" "LINK", transfer "0xpool" "0xa" "abc" "YFI"]
          (Token.mk "0xpool" "LINK") =
        holdersFromResponse asciiToLower
          (filterSymbol (Token.mk "0xpool" "LINK")
            [transfer "0xa" "0xpool" "5" "LINK", transfer "0xpool" "0xa" "abc" "YFI"])
          (Token.mk "0xpool" "LINK") ∧
      filterSymbol (Token.mk "0xpool" "LINK")
          (filterSymbol (Token.mk "0xpool" "LINK")
            [transfer "0xa" "0xpool" "5" "LINK", transfer "0xpool" "0xa" "abc" "YFI"]) =
        filterSymbol (Token.mk "0xpool" "LINK")
          [transfer "0xa" "0xpool" "5" "LINK", transfer "0xpool" "0xa" "abc" "YFI"] ∧
      holdersFromResponse asciiToLower
          ([transfer "0xa" "0xpool" "5" "LINK"] ++ transfer "0xpool" "0xa" "abc" "YFI" ::
            [transfer "0xpool" "0xa" "2" "LINK"]) (Token.mk "0xpool" "LINK") =
        holdersFromResponse asciiToLower
          ([transfer "0xa" "0xpool" "5" "LINK"] ++ [transfer "0xpool" "0xa" "2" "LINK"])
          (Token.mk "0xpool" "LINK")) :=
  ⟨by decide,
    symbolFilter_transparent asciiToLower (Token.mk "0xpool" "LINK")
      [transfer "0xa" "0xpool" "5" "LINK", transfer "0xpool" "0xa" "abc" "YFI"]
      [transfer "0xa" "0xpool" "5" "LINK"] [transfer "0xpool" "0xa" "2" "LINK"]
      (transfer "0xpool" "0xa" "abc" "YFI") (by decide)⟩

/-- C7 (Scenario C): a symbol-matching record with a valid amount whose
lowercased source and lowercased destination both differ from the lowercased
pool address, inserted at any position of a transfer list, does not change
the outcome of `holdersFromResponse`: the same map, with no key added and no
balance changed, or an abort in both cases. -/
theorem nonPoolTransfer_ignored (toLower : String → String) (pool : Token)
    (pre post : List Transaction) (tx : Transaction)
    (hs : tx.TokenSymbol = pool.symbol) (hv : (SetString tx.Value).isSome = true)
    (hd : toLower tx.To ≠ toLower pool.address)
    (hw : toLower tx.From ≠ toLower pool.address) :
    holdersFromResponse toLower (pre ++ tx :: post) pool =
      holdersFromResponse toLower (pre ++ post) pool := by
  obtain ⟨value, hvalue⟩ := Option.isSome_iff_exists.1 hv
  exact holdersLoop_insert toLower pool pre post tx
    (fun h => holdersLoop_other toLower pool tx post h value hs hvalue hd hw)

/-- Witness of C7: a transfer of 7 from `0xa` to `0xb` between a deposit and a
withdrawal of the pool `0xpool`. -/
theorem nonPoolTransfer_ignored_witness :
    ((transfer "0xa" "0xb" "7" "LINK").TokenSymbol = (Token.mk "0xpool" "LINK").symbol ∧
      (SetString (transfer "0xa" "0xb" "7" "LINK").Value).isSome = true ∧
      asciiToLower (transfer "0xa" "0xb" "7" "LINK").To ≠
        asciiToLower (Token.mk "0xpool" "LINK").address ∧
      asciiToLower (transfer "0xa" "0xb" "7" "LINK").From ≠
        asciiToLower (Token.mk "0xpool" "LINK").address) ∧
    holdersFromResponse asciiToLower
        ([transfer "0xa" "0xpool" "5" "LINK"] ++ transfer "0xa" "0xb" "7" "LINK" ::
          [transfer "0xpool" "0xa" "2" "LINK"]) (Token.mk "0xpool" "LINK") =
      holdersFromResponse asciiToLower
        ([transfer "0xa" "0xpool" "5" "LINK"] ++ [transfer "0xpool" "0xa" "2" "LINK"])
        (Token.mk "0xpool" "LINK") :=
  ⟨by decide,
    nonPoolTransfer_ignored asciiToLower (Token.mk "0xpool" "LINK")
      [transfer "0xa" "0xpool" "5" "LINK"] [transfer "0xpool" "0xa" "2" "LINK"]
      (transfer "0xa" "0xb" "7" "LINK") (by decide) (by decide) (by decide) (by decide)⟩

/-- C8: the holder list returned by `totalAndArrayFromMap` is in descending
order of whole-token amount: the amount at position `i` is greater than or
equal to the amount at position `i + 1`. -/
theorem totalAndArrayFromMap_adjacent (holders : List (String × Int)) (i : Nat)
    (hi : i + 1 < (totalAndArrayFromMap holders).1.length) :
    ((totalAndArrayFromMap holders).1.get ⟨i, by omega⟩).amount ≥
      ((totalAndArrayFromMap holders).1.get ⟨i + 1, hi⟩).amount := by
  exact (List.pairwise_iff_get.1 (totalAndArrayFromMap_descending holders))
    ⟨i, by omega⟩ ⟨i + 1, hi⟩ (by simp)

/-- Witness of C8: balances of 1, 3 and 2 whole tokens, positions 0 and 1 of the
ranking. -/
theorem totalAndArrayFromMap_adjacent_witness :
    ∃ hi : 0 + 1 < (totalAndArrayFromMap
        [("0xa", 1000000000000000000), ("0xb", 3000000000000000000),
          ("0xc", 2000000000000000000)]).1.length,
      ((totalAndArrayFromMap
        [("0xa", 1000000000000000000), ("0xb", 3000000000000000000),
          ("0xc", 2000000000000000000)]).1.get ⟨0, by omega⟩).amount ≥
      ((totalAndArrayFromMap
        [("0xa", 1000000000000000000), ("0xb", 3000000000000000000),
          ("0xc", 2000000000000000000)]).1.get ⟨0 + 1, hi⟩).amount :=
  ⟨by decide, totalAndArrayFromMap_adjacent _ 0 (by decide)⟩

/-- C9, as stated, fails on a negative balance: a withdrawal of 1 unit to `0xa`
leaves the balance -1, which `totalAndArrayFromMap` turns into the amount -1,
whereas division truncating toward zero gives 0. -/
theorem negative_balance_not_truncated :
    holdersFromResponse asciiToLower [transfer "0xpool" "0xa" "1" "LINK"]
        ⟨"0xpool", "LINK"⟩ = some [("0xa", -1)] ∧
      (totalAndArrayFromMap [("0xa", -1)]).1.map (fun o => (o.address, o.amount)) =
        [("0xa", -1)] ∧
      Int.tdiv (-1) (10 ^ 18) = 0 := by
  decide

/-- C9, amended: `totalAndArrayFromMap` returns exactly one ranked holder per
key of the map (the addresses are a permutation of the keys, without
duplicates), and the amount of that holder is the balance of the key divided by 10^18
with Euclidean division, which rounds toward negative infinity: it is the
floor quotient `q` with `q * 10^18 ≤ balance < (q + 1) * 10^18`, and equals the
truncated quotient when the balance is not negative; `decimals` is 10^18. -/
theorem totalAndArrayFromMap_entries_floor (holders : List (String × Int))
    (hn : (mapKeys holders).Nodup) :
    ((totalAndArrayFromMap holders).1.map (fun o => o.address)).Perm (mapKeys holders) ∧
      ((totalAndArrayFromMap holders).1.map (fun o => o.address)).Nodup ∧
      (∀ o ∈ (totalAndArrayFromMap holders).1, ∃ b, mapGet holders o.address = some b ∧
        o.amount = Int.fdiv b (10 ^ 18) ∧
        o.amount * 10 ^ 18 ≤ b ∧ b < (o.amount + 1) * 10 ^ 18 ∧
        (0 ≤ b → o.amount = Int.tdiv b (10 ^ 18))) ∧
      decimals = 10 ^ 18 ∧ oneGwei = 10 ^ 9 := by
  have hperm : ((totalAndArrayFromMap holders).1.map (fun o => o.address)).Perm
      (mapKeys holders) := by
    have h1 := (totalAndArrayFromMap_entries holders).map Prod.fst
    simpa [List.map_map, Function.comp_def, mapKeys] using h1
  refine ⟨hperm, hperm.nodup_iff.2 hn, ?_, decimals_eq, rfl⟩
  intro o ho
  have hmem : (o.address, o.amount) ∈
      (totalAndArrayFromMap holders).1.map (fun o => (o.address, o.amount)) :=
    List.mem_map.2 ⟨o, ho, rfl⟩
  have hmem2 := (totalAndArrayFromMap_entries holders).subset hmem
  obtain ⟨p, hp, hpe⟩ := List.mem_map.1 hmem2
  obtain ⟨k, b⟩ := p
  simp only [Prod.mk.injEq] at hpe
  obtain ⟨hk, hb⟩ := hpe
  subst hk
  have hpos : (0 : Int) < 10 ^ 18 := by norm_num
  have hq : o.amount = b / 10 ^ 18 := by
    rw [← hb, decimals_eq]
    rfl
  refine ⟨b, mapGet_of_mem holders hn _ b hp, ?_, ?_, ?_, ?_⟩
  · rw [hq, Int.fdiv_eq_ediv b (le_of_lt hpos)]
  · rw [hq]
    exact Int.ediv_mul_le b (ne_of_gt hpos)
  · rw [hq]
    exact Int.lt_ediv_add_one_mul_self b hpos
  · intro hb0
    rw [hq, Int.tdiv_eq_ediv hb0 (le_of_lt hpos)]

/-- Witness of C9 amended: a map with the balances -1 and 2.5 * 10^18. -/
theorem totalAndArrayFromMap_entries_floor_witness :
    (mapKeys [("0xa", -1), ("0xb", 2500000000000000000)]).Nodup ∧
      (((totalAndArrayFromMap [("0xa", -1), ("0xb", 2500000000000000000)]).1.map
          (fun o => o.address)).Perm (mapKeys [("0xa", -1), ("0xb", 2500000000000000000)]) ∧
        ((totalAndArrayFromMap [("0xa", -1), ("0xb", 2500000000000000000)]).1.map
          (fun o => o.address)).Nodup ∧
        (∀ o ∈ (totalAndArrayFromMap [("0xa", -1), ("0xb", 2500000000000000000)]).1,
          ∃ b, mapGet [("0xa", -1), ("0xb", 2500000000000000000)] o.address = some b ∧
            o.amount = Int.fdiv b (10 ^ 18) ∧
            o.amount * 10 ^ 18 ≤ b ∧ b < (o.amount + 1) * 10 ^ 18 ∧
            (0 ≤ b → o.amount = Int.tdiv b (10 ^ 18))) ∧
        decimals = 10 ^ 18 ∧ oneGwei = 10 ^ 9) :=
  ⟨by decide, totalAndArrayFromMap_entries_floor _ (by decide)⟩

/-- C10: the total returned by `totalAndArrayFromMap` is the sum of the
whole-token amounts of the holders of the ranked list it returns, and is 0 for
the empty map. -/
theorem totalAndArrayFromMap_total_eq_sum (holders : List (String × Int)) :
    (totalAndArrayFromMap holders).2 =
        ((totalAndArrayFromMap holders).1.map (fun o => o.amount)).sum ∧
      (totalAndArrayFromMap []).2 = 0 := by
  constructor
  · rw [totalAndArrayFromMap_total, totalAndArrayFromMap_amounts]
    have h := ((SliceStable_perm lessByAmount (holders.map ownerOfEntry)).map
      (fun o : TokenOwner => o.amount)).sum_eq
    rw [h, List.map_map]
    rfl
  · rfl

/-- C11, evaluated on the code: for a pool with the single holder `0xa` of 3
whole tokens (Scenario D) `formatStats` prints the line of the top 1 holder
and no grand-total line; in general the grand-total line is printed once when
the number of holders is none of 1, 5, 10, 25, 50, 100, 250, and never when
it is one of them. -/
theorem scenarioD_no_grandTotal :
    (totalAndArrayFromMap [("0xa", 3000000000000000000)]).1 = [⟨"0xa", 3, some 100⟩] ∧
      formatStats [⟨"0xa", 3, some 100⟩] = [Line.top 1 (some 100) 3] ∧
      (formatStats [⟨"0xa", 3, some 100⟩]).filterMap grandTotal = [] ∧
      ∀ holders : List TokenOwner,
        (formatStats holders).filterMap grandTotal =
          if holders.length = 0 ∨ holders.length ∈ cutoffs then [] else [holders.length] := by
  have e3 : Int.ediv 3000000000000000000 decimals = 3 := by decide
  have hu : Uint64 3 = 3 := by decide
  refine ⟨?_, ?_, ?_, formatStats_grandTotals⟩
  · simp [totalAndArrayFromMap, accumulateLoop, SliceStable, insertStable, e3, percentOf_3_3]
  · simp [formatStats, formatStatsLoop, addPercent, hu]
  · rw [formatStats_grandTotals]
    decide

/-- C12: the cumulative lines that `formatStats` prints for a ranked list of
length `n` are, in this order and once each, those of the ranks `N` among 1,
5, 10, 25, 50, 100, 250 with `N ≤ n`, and no other rank; for the empty list
nothing is printed. -/
theorem formatStats_percentile_lines (holders : List TokenOwner) :
    (formatStats holders).filterMap topRank =
        cutoffs.filter (fun N => decide (N ≤ holders.length)) ∧
      cutoffs = [1, 5, 10, 25, 50, 100, 250] ∧
      formatStats [] = [] :=
  ⟨formatStats_topRanks holders, rfl, rfl⟩

/-- C13, as stated, fails on a negative amount: a single withdrawal of 10^18
units to `0xa` makes `0xa` the first ranked holder with the amount -1, and the
line of the top 1 holder reports 1 token. -/
theorem rank1_reports_magnitude :
    holdersFromResponse asciiToLower [transfer "0xpool" "0xa" "1000000000000000000" "LINK"]
        ⟨"0xpool", "LINK"⟩ = some [("0xa", -1000000000000000000)] ∧
      (totalAndArrayFromMap [("0xa", -1000000000000000000)]).1.map
        (fun o => (o.address, o.amount)) = [("0xa", -1)] ∧
      (formatStats (totalAndArrayFromMap [("0xa", -1000000000000000000)]).1).map
        (fun line => (topRank line, lineAmount line)) = [(some 1, 1)] := by
  decide

/-- C13, amended: for every non-empty ranked holder list the first line that
`formatStats` prints is the line of the top 1 holder; the percent it reports
is the percent of the first holder, and the amount it reports is the
`Uint64()` of the amount of the first holder, which is that amount exactly
when it lies in the range from 0 to 2^64 - 1. -/
theorem rank1_line (holder : TokenOwner) (rest : List TokenOwner) :
    ∃ tail, formatStats (holder :: rest) =
        Line.top 1 holder.percent (Uint64 holder.amount) :: tail ∧
      ((Uint64 holder.amount : Int) = holder.amount ↔
        0 ≤ holder.amount ∧ holder.amount < 2 ^ 64) := by
  refine ⟨formatStatsLoop (rest.length + 1) rest 1 (addPercent (some 0) holder.percent)
    ((0 + Uint64 holder.amount) % 2 ^ 64), ?_, ?_⟩
  · have hp : addPercent (some 0) holder.percent = holder.percent := by
      cases holder.percent <;> simp [addPercent]
    have hu : (0 + Uint64 holder.amount) % 2 ^ 64 = Uint64 holder.amount := by
      rw [Nat.zero_add]
      exact Nat.mod_eq_of_lt (Nat.mod_lt _ (by decide))
    rw [formatStats, formatStatsLoop_cons, hp, hu]
    simp [printedAt, hp]
  · constructor
    · intro h
      have hlt : Uint64 holder.amount < 2 ^ 64 := Nat.mod_lt _ (by decide)
      have hlt2 : ((Uint64 holder.amount : Nat) : Int) < 2 ^ 64 := by exact_mod_cast hlt
      have h0 : (0 : Int) ≤ (Uint64 holder.amount : Nat) := Int.natCast_nonneg _
      rw [h] at hlt2 h0
      exact ⟨h0, hlt2⟩
    · rintro ⟨h0, h64⟩
      exact Uint64_of_nonneg _ h0 h64

/-- Witness of C13 amended: two holders with 3 and 1 whole tokens, the first
line reporting 75 percent and 3 tokens. -/
theorem rank1_line_witness :
    ∃ tail, formatStats (TokenOwner.mk "0xa" 3 (some 75) :: [TokenOwner.mk "0xb" 1 (some 25)]) =
        Line.top 1 (some 75) 3 :: tail ∧
      ((3 : Int) = 3 ↔ (0 : Int) ≤ 3 ∧ (3 : Int) < 2 ^ 64) :=
  rank1_line (TokenOwner.mk "0xa" 3 (some 75)) [TokenOwner.mk "0xb" 1 (some 25)]

/-- C14, as stated, fails when an amount is negative: after a deposit of
3 * 10^18 by `0xa` and a withdrawal of 10^18 to `0xb` the ranked amounts are 3
and -1 and the total is 2, but the line printed for the last rank reports 4
tokens. -/
theorem cumulative_amount_exceeds_total :
    holdersFromResponse asciiToLower
        [transfer "0xa" "0xpool" "3000000000000000000" "LINK",
          transfer "0xpool" "0xb" "1000000000000000000" "LINK"] ⟨"0xpool", "LINK"⟩ =
        some [("0xa", 3000000000000000000), ("0xb", -1000000000000000000)] ∧
      (totalAndArrayFromMap
          [("0xa", 3000000000000000000), ("0xb", -1000000000000000000)]).1.map
        (fun o => o.amount) = [3, -1] ∧
      (totalAndArrayFromMap
          [("0xa", 3000000000000000000), ("0xb", -1000000000000000000)]).2 = 2 ∧
      (formatStats (totalAndArrayFromMap
          [("0xa", 3000000000000000000), ("0xb", -1000000000000000000)]).1).map lineAmount =
        [3, 4] := by
  decide

/-- C14, amended: for every non-empty balance map whose balances are all
non-negative and whose total is below 2^64, the amount printed on the last
line of `formatStats` equals the total, the amount on the line of the top `N`
holders is the sum of the amounts of the first `N` ranked holders, and the
amount on a grand-total line is the total. -/
theorem cumulative_amount_eq_total (es : List (String × Int)) (hne : es ≠ [])
    (hnonneg : ∀ p ∈ es, 0 ≤ p.2) (hbound : (totalAndArrayFromMap es).2 < 2 ^ 64) :
    (∃ line, (formatStats (totalAndArrayFromMap es).1).getLast? = some line ∧
        (lineAmount line : Int) = (totalAndArrayFromMap es).2) ∧
      (∀ N P A, Line.top N P A ∈ formatStats (totalAndArrayFromMap es).1 →
        N ≤ (totalAndArrayFromMap es).1.length ∧
        (A : Int) = (((totalAndArrayFromMap es).1.take N).map (fun o => o.amount)).sum) ∧
      (∀ m A, Line.holdersInTotal m A ∈ formatStats (totalAndArrayFromMap es).1 →
        m = (totalAndArrayFromMap es).1.length ∧ (A : Int) = (totalAndArrayFromMap es).2) := by
  have hsum := totalAndArrayFromMap_sum es
  have hnn := totalAndArrayFromMap_nonneg es hnonneg
  have hlen := totalAndArrayFromMap_length es
  generalize (totalAndArrayFromMap es).1 = r at hsum hnn hlen ⊢
  generalize (totalAndArrayFromMap es).2 = T at hsum hbound ⊢
  have hrne : r ≠ [] := by
    intro e
    rw [e] at hlen
    exact hne (List.length_eq_zero.1 hlen.symm)
  have hall : (cumulativeAmount r : Int) = T := by
    rw [cumulativeAmount_of_nonneg r hnn (by rw [hsum]; exact hbound), hsum]
  have hpre : ∀ N, (cumulativeAmount (r.take N) : Int) =
      ((r.take N).map (fun o => o.amount)).sum := by
    intro N
    apply cumulativeAmount_of_nonneg
    · intro o ho
      exact hnn o (List.mem_of_mem_take ho)
    · have := sum_take_le r hnn N
      omega
  refine ⟨?_, ?_, ?_⟩
  · obtain ⟨_, hlast⟩ := formatStats_getLast r hrne
    rcases printedAt_cases r.length (r.length - 1) (cumulativePercent r) (cumulativeAmount r)
      with ⟨_, h2⟩ | ⟨_, _, h2⟩ | ⟨_, h1, _⟩
    · exact ⟨Line.top (r.length - 1 + 1) (cumulativePercent r) (cumulativeAmount r),
        by rw [hlast, h2]; rfl, hall⟩
    · exact ⟨Line.holdersInTotal r.length (cumulativeAmount r),
        by rw [hlast, h2]; rfl, hall⟩
    · exact absurd rfl h1
  · intro N P A hmem
    obtain ⟨j, hj, hmem⟩ := (mem_formatStats r _).1 hmem
    rcases printedAt_cases r.length j (cumulativePercent (r.take (j + 1)))
      (cumulativeAmount (r.take (j + 1))) with ⟨_, h2⟩ | ⟨_, _, h2⟩ | ⟨_, _, h2⟩
    · rw [h2] at hmem
      simp only [List.mem_singleton, Line.top.injEq] at hmem
      obtain ⟨hN, _, hA⟩ := hmem
      subst hN
      subst hA
      exact ⟨hj, hpre _⟩
    · rw [h2] at hmem
      simp at hmem
    · rw [h2] at hmem
      simp at hmem
  · intro m A hmem
    obtain ⟨j, hj, hmem⟩ := (mem_formatStats r _).1 hmem
    rcases printedAt_cases r.length j (cumulativePercent (r.take (j + 1)))
      (cumulativeAmount (r.take (j + 1))) with ⟨_, h2⟩ | ⟨_, h1, h2⟩ | ⟨_, _, h2⟩
    · rw [h2] at hmem
      simp at hmem
    · rw [h2] at hmem
      simp only [List.mem_singleton, Line.holdersInTotal.injEq] at hmem
      obtain ⟨hm, hA⟩ := hmem
      have htake : r.take (j + 1) = r := by
        have : j + 1 = r.length := by omega
        rw [this]
        exact List.take_length r
      rw [htake] at hA
      subst hA
      exact ⟨hm, hall⟩
    · rw [h2] at hmem
      simp at hmem

/-- Witness of C14 amended: the balances 3 * 10^18 and 10^18. -/
theorem cumulative_amount_eq_total_witness :
    ([("0xa", 3000000000000000000), ("0xb", 1000000000000000000)] ≠
        ([] : List (String × Int)) ∧
      (∀ p ∈ [("0xa", (3000000000000000000 : Int)), ("0xb", 1000000000000000000)], 0 ≤ p.2) ∧
      (totalAndArrayFromMap
        [("0xa", 3000000000000000000), ("0xb", 1000000000000000000)]).2 < 2 ^ 64) ∧
    ((∃ line, (formatStats (totalAndArrayFromMap
          [("0xa", 3000000000000000000), ("0xb", 1000000000000000000)]).1).getLast? =
          some line ∧
        (lineAmount line : Int) = (totalAndArrayFromMap
          [("0xa", 3000000000000000000), ("0xb", 1000000000000000000)]).2) ∧
      (∀ N P A, Line.top N P A ∈ formatStats (totalAndArrayFromMap
          [("0xa", 3000000000000000000), ("0xb", 1000000000000000000)]).1 →
        N ≤ (totalAndArrayFromMap
          [("0xa", 3000000000000000000), ("0xb", 1000000000000000000)]).1.length ∧
        (A : Int) = (((totalAndArrayFromMap
          [("0xa", 3000000000000000000), ("0xb", 1000000000000000000)]).1.take N).map
            (fun o => o.amount)).sum) ∧
      (∀ m A, Line.holdersInTotal m A ∈ formatStats (totalAndArrayFromMap
          [("0xa", 3000000000000000000), ("0xb", 1000000000000000000)]).1 →
        m = (totalAndArrayFromMap
          [("0xa", 3000000000000000000), ("0xb", 1000000000000000000)]).1.length ∧
        (A : Int) = (totalAndArrayFromMap
          [("0xa", 3000000000000000000), ("0xb", 1000000000000000000)]).2)) :=
  ⟨by decide,
    cumulative_amount_eq_total [("0xa", 3000000000000000000), ("0xb", 1000000000000000000)]
      (by decide) (by decide) (by decide)⟩

/-- C15, as stated, fails in two ways.  Outside the int64 range: for a single
balance of 2^64 * 10^18 the total 2^64 is greater than 0, yet `Int64()` of the
total is 0 and the percent is not a number.  By cancellation: for the balances
(2^53 + 1) * 10^18, 0, 0, 0 and -(2^53) * 10^18 the total is 1, and the
percents, accumulated in float64 in ranked order, sum to 0. -/
theorem percent_sum_not_100 :
    (0 < (totalAndArrayFromMap [("0xa", 18446744073709551616000000000000000000)]).2 ∧
      (totalAndArrayFromMap [("0xa", 18446744073709551616000000000000000000)]).1.map
        (fun o => (o.amount, o.percent)) = [(18446744073709551616, none)]) ∧
    ((totalAndArrayFromMap
        [("0xa", 9007199254740993000000000000000000), ("0xb", 0), ("0xc", 0), ("0xd", 0),
          ("0xe", -9007199254740992000000000000000000)]).2 = 1 ∧
      (totalAndArrayFromMap
        [("0xa", 9007199254740993000000000000000000), ("0xb", 0), ("0xc", 0), ("0xd", 0),
          ("0xe", -9007199254740992000000000000000000)]).1.map (fun o => o.amount) =
        [9007199254740993, 0, 0, 0, -9007199254740992] ∧
      cumulativePercent (totalAndArrayFromMap
        [("0xa", 9007199254740993000000000000000000), ("0xb", 0), ("0xc", 0), ("0xd", 0),
          ("0xe", -9007199254740992000000000000000000)]).1 = some 0) := by
  refine ⟨by decide, by decide, by decide, ?_⟩
  have hp := congrArg (List.map Prod.snd) (totalAndArrayFromMap_percents
    [("0xa", 9007199254740993000000000000000000), ("0xb", 0), ("0xc", 0), ("0xd", 0),
      ("0xe", -9007199254740992000000000000000000)])
  have ha : (totalAndArrayFromMap
      [("0xa", 9007199254740993000000000000000000), ("0xb", 0), ("0xc", 0), ("0xd", 0),
        ("0xe", -9007199254740992000000000000000000)]).1.map (fun o => o.amount) =
      [9007199254740993, 0, 0, 0, -9007199254740992] := by decide
  have ht : (totalAndArrayFromMap
      [("0xa", 9007199254740993000000000000000000), ("0xb", 0), ("0xc", 0), ("0xd", 0),
        ("0xe", -9007199254740992000000000000000000)]).2 = 1 := by decide
  rw [ha, ht] at hp
  simp only [List.map_map, Function.comp_def, List.map_cons, List.map_nil] at hp
  rw [cumulativePercent_eq, hp, percentOf_cancel_pos, percentOf_cancel_neg, percentOf_zero_one]
  simp [addPercent, round64_zero]

/-- C15, amended: for every balance map whose balances are all non-negative,
whose total `T` of whole-token amounts satisfies `0 < T < 2^63` and which has
`n` entries with `n + 5 ≤ 2^52`, the percent of each ranked holder, as computed
in float64, is a finite value within the relative error `10 / 2^53` of the
exact `amount / T * 100`; these exact values sum to exactly 100; and the
percents accumulated in float64 in ranked order sum to a finite value that
differs from 100 by at most `200 * (n + 5) / 2^53`. -/
theorem percents_sum_to_100 (es : List (String × Int)) (hnonneg : ∀ p ∈ es, 0 ≤ p.2)
    (hpos : 0 < (totalAndArrayFromMap es).2) (hlt : (totalAndArrayFromMap es).2 < 2 ^ 63)
    (hn : es.length + 5 ≤ 2 ^ 52) :
    (∀ o ∈ (totalAndArrayFromMap es).1, ∃ v, o.percent = some v ∧
        |v - (o.amount : ℚ) / ((totalAndArrayFromMap es).2 : ℚ) * 100| ≤
          (o.amount : ℚ) / ((totalAndArrayFromMap es).2 : ℚ) * 100 * (10 / 2 ^ 53)) ∧
      ((totalAndArrayFromMap es).1.map
        (fun o => (o.amount : ℚ) / ((totalAndArrayFromMap es).2 : ℚ) * 100)).sum = 100 ∧
      ∃ S, cumulativePercent (totalAndArrayFromMap es).1 = some S ∧
        |S - 100| ≤ 200 * ((es.length : ℚ) + 5) / 2 ^ 53 := by
  have hsum := totalAndArrayFromMap_sum es
  have hnn := totalAndArrayFromMap_nonneg es hnonneg
  have hlen := totalAndArrayFromMap_length es
  have hpct := totalAndArrayFromMap_percent es
  generalize (totalAndArrayFromMap es).1 = r at hsum hnn hlen hpct ⊢
  generalize (totalAndArrayFromMap es).2 = T at hsum hpos hlt hpct ⊢
  have hTq : (0 : ℚ) < T := by exact_mod_cast hpos
  have hu0 : (0 : ℚ) ≤ unitRoundoff := by unfold unitRoundoff; positivity
  have hu : unitRoundoff = 1 / 2 ^ 53 := rfl
  -- every percent is within the relative error of five roundings
  have hrel : ∀ o ∈ r, ∃ v, o.percent = some v ∧
      (o.amount : ℚ) / T * 100 * (1 - unitRoundoff) ^ 5 ≤ v ∧
      v ≤ (o.amount : ℚ) / T * 100 * (1 + unitRoundoff) ^ 5 ∧ (v = 0 ∨ 1 / 2 ^ 70 ≤ v) := by
    intro o ho
    have hle : o.amount ≤ T := by
      rw [← hsum]
      exact amount_le_sum r hnn o ho
    obtain ⟨v, hv, h1, h2, h3⟩ := percentOf_rel o.amount T (hnn o ho) hle hpos hlt
    exact ⟨v, by rw [hpct o ho, hv], h1, h2, h3⟩
  have hx0 : ∀ o ∈ r, (0 : ℚ) ≤ (o.amount : ℚ) / T * 100 := by
    intro o ho
    have : (0 : ℚ) ≤ o.amount := by exact_mod_cast hnn o ho
    positivity
  have hp5 : (1 + unitRoundoff) ^ 5 ≤ 1 + 10 * unitRoundoff := by
    have := one_add_pow_le 5 (by norm_num)
    norm_num at this ⊢
    linarith
  have hm5 : 1 - 5 * unitRoundoff ≤ (1 - unitRoundoff) ^ 5 := by
    have := one_sub_pow_ge 5
    norm_num at this ⊢
    linarith
  have hexact : (r.map (fun o => (o.amount : ℚ) / (T : ℚ) * 100)).sum = 100 := by
    rw [sum_percent, hsum, div_self (ne_of_gt hTq), one_mul]
  refine ⟨?_, hexact, ?_⟩
  · intro o ho
    obtain ⟨v, hv, h1, h2, _⟩ := hrel o ho
    refine ⟨v, hv, ?_⟩
    have hx := hx0 o ho
    rw [abs_le]
    constructor
    · have : (o.amount : ℚ) / T * 100 * (1 - 5 * unitRoundoff) ≤ v :=
        le_trans (mul_le_mul_of_nonneg_left hm5 hx) h1
      rw [hu] at this
      have h5 : (o.amount : ℚ) / T * 100 * (5 / 2 ^ 53) ≤
          (o.amount : ℚ) / T * 100 * (10 / 2 ^ 53) :=
        mul_le_mul_of_nonneg_left (by norm_num) hx
      linarith
    · have : v ≤ (o.amount : ℚ) / T * 100 * (1 + 10 * unitRoundoff) :=
        le_trans h2 (mul_le_mul_of_nonneg_left hp5 hx)
      rw [hu] at this
      linarith
  · -- the accumulated sum
    have hf : ∀ o ∈ r, o.percent = some ((o.percent).getD 0) ∧
        ((o.percent).getD 0 = 0 ∨ 1 / 2 ^ 70 ≤ (o.percent).getD 0) := by
      intro o ho
      obtain ⟨v, hv, _, _, h3⟩ := hrel o ho
      rw [hv]
      exact ⟨rfl, h3⟩
    have hupper : (r.map (fun o => (o.percent).getD 0)).sum ≤ 100 * (1 + unitRoundoff) ^ 5 := by
      rw [← hexact, ← List.sum_map_mul_right]
      apply List.sum_le_sum
      intro o ho
      obtain ⟨v, hv, _, h2, _⟩ := hrel o ho
      rw [hv]
      exact h2
    have hlower : 100 * (1 - unitRoundoff) ^ 5 ≤ (r.map (fun o => (o.percent).getD 0)).sum := by
      rw [← hexact, ← List.sum_map_mul_right]
      apply List.sum_le_sum
      intro o ho
      obtain ⟨v, hv, h1, _, _⟩ := hrel o ho
      rw [hv]
      exact h1
    have hk : r.length + 5 ≤ 2 ^ 52 := by rw [hlen]; exact hn
    have hpk : (1 + unitRoundoff) ^ (r.length + 5) ≤ 1 + 2 * ((r.length : ℚ) + 5) * unitRoundoff := by
      have := one_add_pow_le (r.length + 5) hk
      push_cast at this
      exact this
    have hmk : 1 - ((r.length : ℚ) + 5) * unitRoundoff ≤ (1 - unitRoundoff) ^ (r.length + 5) := by
      have := one_sub_pow_ge (r.length + 5)
      push_cast at this
      exact this
    have hku : ((r.length : ℚ) + 5) * unitRoundoff ≤ 1 / 2 := by
      rw [hu, mul_one_div, div_le_iff₀ (by positivity)]
      have : ((r.length + 5 : Nat) : ℚ) ≤ ((2 ^ 52 : Nat) : ℚ) := by exact_mod_cast hk
      push_cast at this
      linarith
    have hpn : (0 : ℚ) ≤ (1 + unitRoundoff) ^ r.length := pow_nonneg (by linarith) _
    have hmn : (0 : ℚ) ≤ (1 - unitRoundoff) ^ r.length :=
      pow_nonneg (by rw [hu]; norm_num) _
    have hb1 : (0 + (r.map (fun o => (o.percent).getD 0)).sum) * (1 + unitRoundoff) ^ r.length ≤
        100 * (1 + 2 * ((r.length : ℚ) + 5) * unitRoundoff) := by
      rw [zero_add]
      calc (r.map (fun o => (o.percent).getD 0)).sum * (1 + unitRoundoff) ^ r.length
          ≤ 100 * (1 + unitRoundoff) ^ 5 * (1 + unitRoundoff) ^ r.length :=
            mul_le_mul_of_nonneg_right hupper hpn
        _ = 100 * (1 + unitRoundoff) ^ (r.length + 5) := by ring
        _ ≤ 100 * (1 + 2 * ((r.length : ℚ) + 5) * unitRoundoff) :=
            mul_le_mul_of_nonneg_left hpk (by norm_num)
    have hb2 : 100 * (1 - ((r.length : ℚ) + 5) * unitRoundoff) ≤
        (0 + (r.map (fun o => (o.percent).getD 0)).sum) * (1 - unitRoundoff) ^ r.length := by
      rw [zero_add]
      calc 100 * (1 - ((r.length : ℚ) + 5) * unitRoundoff)
          ≤ 100 * (1 - unitRoundoff) ^ (r.length + 5) :=
            mul_le_mul_of_nonneg_left hmk (by norm_num)
        _ = 100 * (1 - unitRoundoff) ^ 5 * (1 - unitRoundoff) ^ r.length := by ring
        _ ≤ (r.map (fun o => (o.percent).getD 0)).sum * (1 - unitRoundoff) ^ r.length :=
            mul_le_mul_of_nonneg_right hlower hmn
    have hbound : (0 + (r.map (fun o => (o.percent).getD 0)).sum) *
        (1 + unitRoundoff) ^ r.length ≤ 2 ^ 1023 := by
      have h200 : 100 * (1 + 2 * ((r.length : ℚ) + 5) * unitRoundoff) ≤ 200 := by linarith
      have : (200 : ℚ) ≤ 2 ^ 1023 := by norm_num
      linarith
    obtain ⟨S, hS, hSl, hSu, _⟩ :=
      foldl_addPercent_rel (fun o => (o.percent).getD 0) r 0 hf (Or.inl rfl) hbound
    refine ⟨S, hS, ?_⟩
    have hlenq : (es.length : ℚ) = (r.length : ℚ) := by rw [hlen]
    rw [hlenq, abs_le]
    have e1 : 200 * ((r.length : ℚ) + 5) / 2 ^ 53 = 200 * (((r.length : ℚ) + 5) * unitRoundoff) := by
      rw [hu]
      ring
    rw [e1]
    have hr0 : (0 : ℚ) ≤ (r.length : ℚ) + 5 := by
      have : (0 : ℚ) ≤ (r.length : ℚ) := Nat.cast_nonneg _
      linarith
    have hk0 : 0 ≤ ((r.length : ℚ) + 5) * unitRoundoff := mul_nonneg hr0 hu0
    constructor
    · linarith only [hSl, hb2, hk0]
    · linarith only [hSu, hb1, hk0]

/-- Witness of C15 amended: the balances 3 * 10^18 and 10^18. -/
theorem percents_sum_to_100_witness :
    ((∀ p ∈ [("0xa", (3000000000000000000 : Int)), ("0xb", 1000000000000000000)], 0 ≤ p.2) ∧
      0 < (totalAndArrayFromMap
        [("0xa", 3000000000000000000), ("0xb", 1000000000000000000)]).2 ∧
      (totalAndArrayFromMap
        [("0xa", 3000000000000000000), ("0xb", 1000000000000000000)]).2 < 2 ^ 63 ∧
      [("0xa", (3000000000000000000 : Int)), ("0xb", 1000000000000000000)].length + 5 ≤
        2 ^ 52) ∧
    ∃ S, cumulativePercent (totalAndArrayFromMap
        [("0xa", 3000000000000000000), ("0xb", 1000000000000000000)]).1 = some S ∧
      |S - 100| ≤ 200 * (((2 : Nat) : ℚ) + 5) / 2 ^ 53 :=
  ⟨by decide,
    (percents_sum_to_100 [("0xa", 3000000000000000000), ("0xb", 1000000000000000000)]
      (by decide) (by decide) (by decide) (by decide)).2.2⟩

/-- C16: for two transfer lists that are permutations of each other,
`holdersFromResponse` aborts on both or on neither, and when it returns maps
they have the same keys and the same balance for every key; the two maps hold
the same entries. -/
theorem holdersFromResponse_order_independent (toLower : String → String) (pool : Token)
    (txs₁ txs₂ : List Transaction) (hperm : txs₁.Perm txs₂) :
    (holdersFromResponse toLower txs₁ pool = none ↔
        holdersFromResponse toLower txs₂ pool = none) ∧
      ∀ m₁ m₂, holdersFromResponse toLower txs₁ pool = some m₁ →
        holdersFromResponse toLower txs₂ pool = some m₂ →
        (∀ a, a ∈ mapKeys m₁ ↔ a ∈ mapKeys m₂) ∧
        (∀ a, mapGet m₁ a = mapGet m₂ a) ∧
        m₁.Perm m₂ := by
  constructor
  · unfold holdersFromResponse
    rw [holdersLoop_eq_none_iff, holdersLoop_eq_none_iff]
    constructor
    · rintro ⟨tx, ht, hc⟩
      exact ⟨tx, hperm.mem_iff.1 ht, hc⟩
    · rintro ⟨tx, ht, hc⟩
      exact ⟨tx, hperm.mem_iff.2 ht, hc⟩
  · intro m₁ m₂ h₁ h₂
    have hkeys : ∀ a, a ∈ mapKeys m₁ ↔ a ∈ mapKeys m₂ := by
      intro a
      rw [holdersLoop_keys toLower pool txs₁ [] m₁ h₁ a,
        holdersLoop_keys toLower pool txs₂ [] m₂ h₂ a,
        tookPart_perm toLower pool txs₁ txs₂ hperm a]
    have hbal : ∀ a, (mapGet m₁ a).getD 0 = (mapGet m₂ a).getD 0 := by
      intro a
      rw [holdersLoop_balance toLower pool txs₁ [] m₁ h₁ a,
        holdersLoop_balance toLower pool txs₂ [] m₂ h₂ a,
        depositedBy_perm toLower pool txs₁ txs₂ hperm a,
        withdrawnTo_perm toLower pool txs₁ txs₂ hperm a]
    have hget : ∀ a, mapGet m₁ a = mapGet m₂ a := by
      intro a
      have hb := hbal a
      cases hq₁ : mapGet m₁ a with
      | none =>
        have hn : a ∉ mapKeys m₂ := fun hc =>
          (mapGet_eq_none_iff m₁ a).1 hq₁ ((hkeys a).2 hc)
        rw [(mapGet_eq_none_iff m₂ a).2 hn]
      | some v₁ =>
        obtain ⟨v₂, hq₂⟩ := (mapGet_isSome_iff m₂ a).2
          ((hkeys a).1 ((mapGet_isSome_iff m₁ a).1 ⟨v₁, hq₁⟩))
        rw [hq₁, hq₂] at hb
        rw [hq₂]
        exact congrArg some hb
    refine ⟨hkeys, hget, ?_⟩
    have hn₁ := holdersLoop_nodup toLower pool txs₁ [] m₁ h₁ (by simp [mapKeys])
    have hn₂ := holdersLoop_nodup toLower pool txs₂ [] m₂ h₂ (by simp [mapKeys])
    rw [List.perm_ext_iff_of_nodup (List.Nodup.of_map _ hn₁) (List.Nodup.of_map _ hn₂)]
    rintro ⟨k, v⟩
    constructor
    · intro hmem
      apply mem_of_mapGet
      rw [← hget k]
      exact mapGet_of_mem m₁ hn₁ k v hmem
    · intro hmem
      apply mem_of_mapGet
      rw [hget k]
      exact mapGet_of_mem m₂ hn₂ k v hmem

/-- Witness of C16: a deposit by `0xa` and a withdrawal to `0xb`, in the two
orders. -/
theorem holdersFromResponse_order_independent_witness :
    [transfer "0xa" "0xpool" "5" "LINK", transfer "0xpool" "0xb" "2" "LINK"].Perm
        [transfer "0xpool" "0xb" "2" "LINK", transfer "0xa" "0xpool" "5" "LINK"] ∧
      ((holdersFromResponse asciiToLower
            [transfer "0xa" "0xpool" "5" "LINK", transfer "0xpool" "0xb" "2" "LINK"]
            ⟨"0xpool", "LINK"⟩ = none ↔
          holdersFromResponse asciiToLower
            [transfer "0xpool" "0xb" "2" "LINK", transfer "0xa" "0xpool" "5" "LINK"]
            ⟨"0xpool", "LINK"⟩ = none) ∧
        ∀ m₁ m₂, holdersFromResponse asciiToLower
            [transfer "0xa" "0xpool" "5" "LINK", transfer "0xpool" "0xb" "2" "LINK"]
            ⟨"0xpool", "LINK"⟩ = some m₁ →
          holdersFromResponse asciiToLower
            [transfer "0xpool" "0xb" "2" "LINK", transfer "0xa" "0xpool" "5" "LINK"]
            ⟨"0xpool", "LINK"⟩ = some m₂ →
          (∀ a, a ∈ mapKeys m₁ ↔ a ∈ mapKeys m₂) ∧
          (∀ a, mapGet m₁ a = mapGet m₂ a) ∧
          m₁.Perm m₂) :=
  ⟨List.Perm.swap _ _ _,
    holdersFromResponse_order_independent asciiToLower ⟨"0xpool", "LINK"⟩ _ _
      (List.Perm.swap _ _ _)⟩

/-- C17: with a lowercasing that leaves lowercased strings unchanged, every
key of the map returned by `holdersFromResponse` equals its own lowercase
form, and the outcome is the same when the source or the destination of any
record, or the pool address, is replaced by a string with the same lowercase
form; token symbols are compared exactly: a record with the symbol `link` is
skipped for a pool of symbol `LINK`. -/
theorem addresses_keyed_lowercase (toLower : String → String)
    (hidem : ∀ s, toLower (toLower s) = toLower s) (pool pool' : Token)
    (txs txs' : List Transaction)
    (hpool : toLower pool.address = toLower pool'.address) (hsym : pool.symbol = pool'.symbol)
    (hvar : List.Forall₂ (caseVariant toLower) txs txs') :
    holdersFromResponse toLower txs pool = holdersFromResponse toLower txs' pool' ∧
      (∀ m, holdersFromResponse toLower txs pool = some m → ∀ k ∈ mapKeys m, toLower k = k) ∧
      (∀ src : String,
        holdersFromResponse toLower [transfer src "0xpool" "5" "link"] ⟨"0xpool", "LINK"⟩ =
          some [] ∧
        holdersFromResponse toLower [transfer src "0xpool" "5" "LINK"] ⟨"0xpool", "LINK"⟩ =
          some [(toLower src, 5)]) := by
  refine ⟨holdersLoop_caseVariant toLower pool pool' txs txs' hpool hsym hvar [], ?_, ?_⟩
  · intro m hm k hk
    have := (holdersLoop_keys toLower pool txs [] m hm k).1 hk
    rcases this with hnil | ⟨tx, _, ⟨_, he⟩ | ⟨_, he⟩⟩
    · simp [mapKeys] at hnil
    · rw [← he]; exact hidem _
    · rw [← he]; exact hidem _
  · intro src
    have h5 : SetString "5" = some 5 := by decide
    constructor
    · simp [holdersFromResponse, holdersLoop, transfer]
    · simp [holdersFromResponse, holdersLoop, transfer, h5, mapGet, mapSet]

/-- Witness of C17: the same deposit and withdrawal written with other letter
cases, for the pool `0xPool` and `0xpool`. -/
theorem addresses_keyed_lowercase_witness :
    ((∀ s, asciiToLower (asciiToLower s) = asciiToLower s) ∧
      asciiToLower (Token.mk "0xPool" "LINK").address =
        asciiToLower (Token.mk "0xpool" "LINK").address ∧
      (Token.mk "0xPool" "LINK").symbol = (Token.mk "0xpool" "LINK").symbol ∧
      List.Forall₂ (caseVariant asciiToLower)
        [transfer "0xAb" "0xPOOL" "5" "LINK", transfer "0xpool" "0xAB" "2" "LINK"]
        [transfer "0xab" "0xpool" "5" "LINK", transfer "0xPool" "0xaB" "2" "LINK"]) ∧
    (holdersFromResponse asciiToLower
          [transfer "0xAb" "0xPOOL" "5" "LINK", transfer "0xpool" "0xAB" "2" "LINK"]
          (Token.mk "0xPool" "LINK") =
        holdersFromResponse asciiToLower
          [transfer "0xab" "0xpool" "5" "LINK", transfer "0xPool" "0xaB" "2" "LINK"]
          (Token.mk "0xpool" "LINK") ∧
      (∀ m, holdersFromResponse asciiToLower
          [transfer "0xAb" "0xPOOL" "5" "LINK", transfer "0xpool" "0xAB" "2" "LINK"]
          (Token.mk "0xPool" "LINK") = some m → ∀ k ∈ mapKeys m, asciiToLower k = k) ∧
      (∀ src : String,
        holdersFromResponse asciiToLower [transfer src "0xpool" "5" "link"]
          ⟨"0xpool", "LINK"⟩ = some [] ∧
        holdersFromResponse asciiToLower [transfer src "0xpool" "5" "LINK"]
          ⟨"0xpool", "LINK"⟩ = some [(asciiToLower src, 5)])) :=
  ⟨⟨asciiToLower_idem, by decide, by decide,
      List.Forall₂.cons (by unfold caseVariant; decide)
        (List.Forall₂.cons (by unfold caseVariant; decide) List.Forall₂.nil)⟩,
    addresses_keyed_lowercase asciiToLower asciiToLower_idem (Token.mk "0xPool" "LINK")
      (Token.mk "0xpool" "LINK") _ _ (by decide) (by decide)
      (List.Forall₂.cons (by unfold caseVariant; decide)
        (List.Forall₂.cons (by unfold caseVariant; decide) List.Forall₂.nil))⟩

/-- C18, as stated, fails: the value `-5` parses to -5, so a deposit by `0xa`
with that value does not abort and leaves `0xa` with the balance -5, below its
balance 0 before the record. -/
theorem negative_value_accepted :
    SetString "-5" = some (-5) ∧
      holdersFromResponse asciiToLower [transfer "0xa" "0xpool" "-5" "LINK"]
        ⟨"0xpool", "LINK"⟩ = some [("0xa", -5)] ∧
      holdersFromResponse asciiToLower
        [transfer "0xa" "0xpool" "7" "LINK", transfer "0xa" "0xpool" "-5" "LINK"]
        ⟨"0xpool", "LINK"⟩ = some [("0xa", 2)] := by
  decide

/-- C18, amended: the values that `holdersFromResponse` accepts are exactly
the signed base-10 integers, an optional sign `+` or `-` followed by one or
more decimal digits; a minus sign followed by digits is accepted with a
non-positive amount, a value without a minus sign with a non-negative amount;
an accepted amount is folded with its sign, a deposit adding it to the balance
of its source and a withdrawal subtracting it from the balance of its
destination, so that for a value without a minus sign a deposit does not
decrease and a withdrawal does not increase the balance of the counterparty. -/
theorem accepted_value_signed (toLower : String → String) (pool : Token)
    (tx : Transaction) (h : List (String × Int)) (value : Int)
    (hs : tx.TokenSymbol = pool.symbol) (hv : SetString tx.Value = some value) :
    (∀ s : String, (SetString s).isSome = isSignedDecimal s) ∧
      (∀ cs : List Char, isDigits cs = true →
        ∃ n : Nat, SetString (String.mk ('-' :: cs)) = some (-(n : Int))) ∧
      (tx.Value.data.head? ≠ some '-' → 0 ≤ value) ∧
      (tx.Value.data.head? = some '-' → value ≤ 0) ∧
      ∃ h', holdersLoop toLower pool [tx] h = some h' ∧
        (toLower tx.To = toLower pool.address →
          (mapGet h' (toLower tx.From)).getD 0 = (mapGet h (toLower tx.From)).getD 0 + value) ∧
        (toLower tx.To ≠ toLower pool.address → toLower tx.From = toLower pool.address →
          (mapGet h' (toLower tx.To)).getD 0 = (mapGet h (toLower tx.To)).getD 0 - value) ∧
        (tx.Value.data.head? ≠ some '-' → toLower tx.To = toLower pool.address →
          (mapGet h (toLower tx.From)).getD 0 ≤ (mapGet h' (toLower tx.From)).getD 0) ∧
        (tx.Value.data.head? ≠ some '-' → toLower tx.To ≠ toLower pool.address →
          toLower tx.From = toLower pool.address →
          (mapGet h' (toLower tx.To)).getD 0 ≤ (mapGet h (toLower tx.To)).getD 0) := by
  refine ⟨SetString_isSome, ?_, SetString_nonneg tx.Value value hv,
    SetString_nonpos tx.Value value hv, ?_⟩
  · intro cs hcs
    have hsome : (scanNat cs).isSome = true := by rw [scanNat_isSome]; exact hcs
    obtain ⟨n, hn⟩ := Option.isSome_iff_exists.1 hsome
    refine ⟨n, ?_⟩
    rw [SetString_minus (String.mk ('-' :: cs)) cs rfl, hn]
    rfl
  · by_cases hd : toLower tx.To = toLower pool.address
    · refine ⟨_, holdersLoop_deposit toLower pool tx [] h value hs hv hd, ?_, ?_, ?_, ?_⟩
      · intro _
        rw [mapGet_mapSet, if_pos rfl]
        rfl
      · intro hc
        exact absurd hd hc
      · intro hminus _
        have h0 := SetString_nonneg tx.Value value hv hminus
        rw [mapGet_mapSet, if_pos rfl]
        simp only [Option.getD_some]
        omega
      · intro _ hc
        exact absurd hd hc
    · by_cases hw : toLower tx.From = toLower pool.address
      · refine ⟨_, holdersLoop_withdrawal toLower pool tx [] h value hs hv hd hw, ?_, ?_, ?_, ?_⟩
        · intro hc
          exact absurd hc hd
        · intro _ _
          rw [mapGet_mapSet, if_pos rfl]
          rfl
        · intro _ hc
          exact absurd hc hd
        · intro hminus _ _
          have h0 := SetString_nonneg tx.Value value hv hminus
          rw [mapGet_mapSet, if_pos rfl]
          simp only [Option.getD_some]
          omega
      · refine ⟨_, holdersLoop_other toLower pool tx [] h value hs hv hd hw, ?_, ?_, ?_, ?_⟩
        · intro hc
          exact absurd hc hd
        · intro _ hc
          exact absurd hc hw
        · intro _ hc
          exact absurd hc hd
        · intro _ _ hc
          exact absurd hc hw

/-- Witness of C18 amended: a deposit with the value `-5` by `0xa`, who holds
7, leaves `0xa` with 2. -/
theorem accepted_value_signed_witness :
    ((transfer "0xa" "0xpool" "-5" "LINK").TokenSymbol = (Token.mk "0xpool" "LINK").symbol ∧
      SetString (transfer "0xa" "0xpool" "-5" "LINK").Value = some (-5)) ∧
    holdersLoop asciiToLower (Token.mk "0xpool" "LINK") [transfer "0xa" "0xpool" "-5" "LINK"]
      [("0xa", 7)] = some [("0xa", 2)] ∧
    ∃ h', holdersLoop asciiToLower (Token.mk "0xpool" "LINK")
        [transfer "0xa" "0xpool" "-5" "LINK"] [("0xa", 7)] = some h' ∧
      (asciiToLower (transfer "0xa" "0xpool" "-5" "LINK").To =
          asciiToLower (Token.mk "0xpool" "LINK").address →
        (mapGet h' (asciiToLower (transfer "0xa" "0xpool" "-5" "LINK").From)).getD 0 =
          (mapGet [("0xa", 7)]
            (asciiToLower (transfer "0xa" "0xpool" "-5" "LINK").From)).getD 0 + -5) :=
  ⟨by decide, by decide,
    let ⟨h', h1, h2, _⟩ := (accepted_value_signed asciiToLower (Token.mk "0xpool" "LINK")
      (transfer "0xa" "0xpool" "-5" "LINK") [("0xa", 7)] (-5) (by decide) (by decide)).2.2.2.2
    ⟨h', h1, h2⟩⟩

/-- C19: for two enumerations of the same balance map, `totalAndArrayFromMap`
returns the same total and ranked lists with the same whole-token amounts and
the same percents position by position, holders of equal amount keeping the
order of the enumeration, and `formatStats` prints the same lines, hence the
same cumulative amounts, in both runs. -/
theorem report_independent_of_enumeration (es₁ es₂ : List (String × Int))
    (hperm : es₁.Perm es₂) :
    (totalAndArrayFromMap es₁).2 = (totalAndArrayFromMap es₂).2 ∧
      (totalAndArrayFromMap es₁).1.map (fun o => o.amount) =
        (totalAndArrayFromMap es₂).1.map (fun o => o.amount) ∧
      (totalAndArrayFromMap es₁).1.map (fun o => o.percent) =
        (totalAndArrayFromMap es₂).1.map (fun o => o.percent) ∧
      (∀ v : Int,
        ((totalAndArrayFromMap es₁).1.filter (fun o => decide (o.amount = v))).map
            (fun o => o.address) =
          (es₁.filter (fun p => decide (Int.ediv p.2 decimals = v))).map Prod.fst) ∧
      formatStats (totalAndArrayFromMap es₁).1 = formatStats (totalAndArrayFromMap es₂).1 ∧
      (formatStats (totalAndArrayFromMap es₁).1).map lineAmount =
        (formatStats (totalAndArrayFromMap es₂).1).map lineAmount := by
  have htotal := totalAndArrayFromMap_total_perm es₁ es₂ hperm
  have hamounts := totalAndArrayFromMap_amounts_perm es₁ es₂ hperm
  have hboth : (totalAndArrayFromMap es₁).1.map (fun o => (o.amount, o.percent)) =
      (totalAndArrayFromMap es₂).1.map (fun o => (o.amount, o.percent)) := by
    rw [totalAndArrayFromMap_percents, totalAndArrayFromMap_percents, hamounts, htotal]
  have hlen : (totalAndArrayFromMap es₁).1.length = (totalAndArrayFromMap es₂).1.length := by
    rw [totalAndArrayFromMap_length, totalAndArrayFromMap_length]
    exact hperm.length_eq
  have hfmt : formatStats (totalAndArrayFromMap es₁).1 =
      formatStats (totalAndArrayFromMap es₂).1 := by
    unfold formatStats
    rw [hlen]
    exact formatStatsLoop_congr _ _ _ hboth _ _ _
  refine ⟨htotal, hamounts, ?_, fun v => totalAndArrayFromMap_stable es₁ v, hfmt, ?_⟩
  · have := congrArg (List.map Prod.snd) hboth
    simpa [List.map_map, Function.comp_def] using this
  · rw [hfmt]

/-- Witness of C19: three balances of 1, 2.5 and 1 whole tokens, enumerated in
two orders. -/
theorem report_independent_of_enumeration_witness :
    [("0xa", (1000000000000000000 : Int)), ("0xb", 2500000000000000000),
        ("0xc", 1000000000000000000)].Perm
      [("0xc", 1000000000000000000), ("0xa", 1000000000000000000),
        ("0xb", 2500000000000000000)] ∧
    (totalAndArrayFromMap [("0xa", 1000000000000000000), ("0xb", 2500000000000000000),
        ("0xc", 1000000000000000000)]).1.map (fun o => (o.address, o.amount)) =
      [("0xb", 2), ("0xa", 1), ("0xc", 1)] ∧
    (totalAndArrayFromMap [("0xc", 1000000000000000000), ("0xa", 1000000000000000000),
        ("0xb", 2500000000000000000)]).1.map (fun o => (o.address, o.amount)) =
      [("0xb", 2), ("0xc", 1), ("0xa", 1)] ∧
    formatStats (totalAndArrayFromMap [("0xa", 1000000000000000000),
        ("0xb", 2500000000000000000), ("0xc", 1000000000000000000)]).1 =
      formatStats (totalAndArrayFromMap [("0xc", 1000000000000000000),
        ("0xa", 1000000000000000000), ("0xb", 2500000000000000000)]).1 :=
  ⟨by decide, by decide, by decide,
    (report_independent_of_enumeration
      [("0xa", 1000000000000000000), ("0xb", 2500000000000000000),
        ("0xc", 1000000000000000000)]
      [("0xc", 1000000000000000000), ("0xa", 1000000000000000000),
        ("0xb", 2500000000000000000)] (by decide)).2.2.2.2.1⟩

/-- C20: for every balance map with `n` entries and raw balance sum `S`, the
total `T` returned by `totalAndArrayFromMap` satisfies
`T * 10^18 ≤ S ≤ T * 10^18 + n * (10^18 - 1)`; hence `T` does not exceed the
whole-token value `S / 10^18` of the net flow, and falls short of it by fewer
than `n` tokens when the map is not empty. -/
theorem normalisation_loss_bound (es : List (String × Int)) :
    (totalAndArrayFromMap es).2 * 10 ^ 18 ≤ (mapValues es).sum ∧
      (mapValues es).sum ≤
        (totalAndArrayFromMap es).2 * 10 ^ 18 + (es.length : Int) * (10 ^ 18 - 1) ∧
      (totalAndArrayFromMap es).2 ≤ (mapValues es).sum / 10 ^ 18 ∧
      ((mapValues es).sum / 10 ^ 18 - (totalAndArrayFromMap es).2) * 10 ^ 18 ≤
        (es.length : Int) * (10 ^ 18 - 1) ∧
      (es ≠ [] → (mapValues es).sum / 10 ^ 18 - (totalAndArrayFromMap es).2 < es.length) ∧
      decimals = 10 ^ 18 := by
  obtain ⟨h1, h2⟩ := sum_ediv_bounds es
  rw [← totalAndArrayFromMap_total] at h1 h2
  have hlen : es ≠ [] → (0 : Int) < es.length := by
    intro hne
    have := List.length_pos.2 hne
    exact_mod_cast this
  norm_num only
  refine ⟨h1, h2, ?_, ?_, ?_, decimals_eq⟩
  · omega
  · omega
  · intro hne
    have := hlen hne
    omega

end OnchainAnalysis
